import Mathlib

/-!
Verification of the IntlGemma localization core against its specification.

Python strings are modelled as lists of characters (`Str`), Python dicts as
ordered association structures (`JObj`) whose entries are either string leaves
or nested objects, matching the `dict[str, str | dict]` trees the program
manipulates (the data model coerces every other leaf to text before
flattening).  All definitions are executable and translated from the source
files of the repository; the one exception, marked in its doc comment, is
`order_like_source`, whose defining module is not part of the sources.
-/

abbrev Str := List Char

def S (s : String) : Str := s.toList

/-- Lexicographic comparison of strings by code point, as Python compares
`str` values. -/
def lexLe : Str → Str → Bool
  | [], _ => true
  | _ :: _, [] => false
  | a :: as', b :: bs' =>
      if a = b then lexLe as' bs' else decide (a.val < b.val)

/-- Insert into a sorted list, keeping order (helper for `sortStr`). -/
def insSorted (x : Str) : List Str → List Str
  | [] => [x]
  | y :: ys => if lexLe x y then x :: y :: ys else y :: insSorted x ys

/-- Python `sorted` on a list of strings (insertion sort; equal strings are
identical, so stability is irrelevant). -/
def sortStr : List Str → List Str
  | [] => []
  | x :: xs => insSorted x (sortStr xs)

/-- The characters Python `str.strip()` removes (ASCII whitespace; the texts
handled here contain no other Unicode space characters). -/
def isWS (c : Char) : Bool :=
  c = ' ' || c = '\t' || c = '\n' || c = '\r' || c = '\x0b' || c = '\x0c'

/-- Python `str.strip()`. -/
def pyStrip (s : Str) : Str :=
  ((s.dropWhile isWS).reverse.dropWhile isWS).reverse

/-- Python `str.split(sep)` for a one-character separator: `"".split(".")`
is `[""]`, and empty fields are kept. -/
def splitSep (sep : Char) : Str → List Str
  | [] => [[]]
  | c :: r =>
      if c = sep then [] :: splitSep sep r
      else
        match splitSep sep r with
        | h :: t => (c :: h) :: t
        | [] => [[c]]

/-- Python `str.split(sep, 1)` for a one-character separator: at most one
split, at the first occurrence. -/
def splitMax1 (sep : Char) : Str → List Str
  | [] => [[]]
  | c :: r =>
      if c = sep then [[], r]
      else
        match splitMax1 sep r with
        | h :: t => (c :: h) :: t
        | [] => [[c]]

/-- Does `pat` occur at the start of `s`? -/
def startsList : Str → Str → Bool
  | [], _ => true
  | _ :: _, [] => false
  | p :: ps, c :: cs => p = c && startsList ps cs

/-- Python substring test `pat in s`. -/
def containsSub (pat : Str) : Str → Bool
  | [] => startsList pat []
  | s@(_ :: rest) => startsList pat s || containsSub pat rest

/-- Join path segments with the separator `.` (proof-side helper, the inverse
direction of `splitSep`). -/
def joinDot : List Str → Str
  | [] => []
  | [p] => p
  | p :: rest => p ++ '.' :: joinDot rest

/-! ## The tree data model

`JObj` is an insertion-ordered string-keyed dictionary whose values are
either strings (`consS`) or nested dictionaries (`consO`): exactly the shape
of a parsed localization JSON document.  `JVal` is the type of a single
looked-up value. -/

inductive JObj where
  | nil : JObj
  | consS : Str → Str → JObj → JObj
  | consO : Str → JObj → JObj → JObj
deriving DecidableEq, Repr

inductive JVal where
  | vs : Str → JVal
  | vo : JObj → JVal
deriving DecidableEq, Repr

/-- The keys of a dictionary, in insertion order. -/
def keysOf : JObj → List Str
  | .nil => []
  | .consS k _ rest => k :: keysOf rest
  | .consO k _ rest => k :: keysOf rest

/-- Python `key in d`. -/
def memKey (k : Str) : JObj → Bool
  | .nil => false
  | .consS k' _ rest => k = k' || memKey k rest
  | .consO k' _ rest => k = k' || memKey k rest

/-- Python `d[key]` / `d.get(key)` (first match; dict keys are unique). -/
def lookupJ : JObj → Str → Option JVal
  | .nil, _ => none
  | .consS k' v rest, k => if k = k' then some (.vs v) else lookupJ rest k
  | .consO k' sub rest, k => if k = k' then some (.vo sub) else lookupJ rest k

/-- Python `d[key] = value`: overwrite in place if the key exists (keeping its
position, as dicts do), else append at the end. -/
def updateJ : JObj → Str → JVal → JObj
  | .nil, k, .vs v => .consS k v .nil
  | .nil, k, .vo s => .consO k s .nil
  | .consS k' v' rest, k, v =>
      if k = k' then
        match v with
        | .vs w => .consS k' w rest
        | .vo s => .consO k' s rest
      else .consS k' v' (updateJ rest k v)
  | .consO k' s' rest, k, v =>
      if k = k' then
        match v with
        | .vs w => .consS k' w rest
        | .vo s => .consO k' s rest
      else .consO k' s' (updateJ rest k v)

/-- Concatenate two dictionaries (proof-side helper). -/
def appendJ : JObj → JObj → JObj
  | .nil, t => t
  | .consS k v rest, t => .consS k v (appendJ rest t)
  | .consO k s rest, t => .consO k s (appendJ rest t)

/-- Python `d[key] = value` on a flat association list of strings. -/
def updateL : List (Str × Str) → Str → Str → List (Str × Str)
  | [], k, v => [(k, v)]
  | (k', v') :: rest, k, v =>
      if k = k' then (k', v) :: rest else (k', v') :: updateL rest k v

/-- Python `dict(items)`: keys keep their first-occurrence position, the last
value for a key wins. -/
def pyDictL (l : List (Str × Str)) : List (Str × Str) :=
  l.foldl (fun acc kv => updateL acc kv.1 kv.2) []

/-- Python `key in d` on a flat association list. -/
def memL (k : Str) : List (Str × Str) → Bool
  | [] => false
  | (k', _) :: rest => k = k' || memL k rest

/-- Python `d.get(key)` on a flat association list. -/
def lookupL : List (Str × Str) → Str → Option Str
  | [], _ => none
  | (k', v) :: rest, k => if k = k' then some v else lookupL rest k

/-! ## `utils/json_handler.py` -/

/-- The key built by `flatten_dict` for a child `k` of prefix `parent`:
`f"{parent_key}{sep}{key}" if parent_key else key` with `sep = "."` (the
default, used at every call site). -/
def newkey (parent k : Str) : Str :=
  if parent = [] then k else parent ++ '.' :: k

/-- Python `repr` of a string (single-quoted; the values arising here contain
no quote characters needing escapes). Helper for `pyStr`. -/
def quoteRepr (s : Str) : Str :=
  '\'' :: s ++ ['\'']

/-- Python `repr` of the entries of a dict, comma-separated. Helper for
`pyStr`. -/
def reprEntries : JObj → Str
  | .nil => []
  | .consS k v .nil => quoteRepr k ++ ':' :: ' ' :: quoteRepr v
  | .consO k sub .nil => quoteRepr k ++ ':' :: ' ' :: '{' :: reprEntries sub ++ ['}']
  | .consS k v rest =>
      quoteRepr k ++ ':' :: ' ' :: quoteRepr v ++ ',' :: ' ' :: reprEntries rest
  | .consO k sub rest =>
      quoteRepr k ++ ':' :: ' ' :: '{' :: reprEntries sub ++ '}' :: ',' :: ' ' :: reprEntries rest

/-- Python `str(value)` for a value of the tree: a string is unchanged, a
dict is rendered as its repr. -/
def pyStr : JVal → Str
  | .vs v => v
  | .vo sub => '{' :: reprEntries sub ++ ['}']

/-- The `items` list accumulated by one invocation of `flatten_dict`
(`json_handler.py` lines 21-48): leaves contribute `(new_key, str(value))`,
and in nested mode a dict value contributes the items of the recursive
`flatten_dict` call (which are already deduplicated by its final `dict`). -/
def flatten_go : JObj → Str → Bool → List (Str × Str)
  | .nil, _, _ => []
  | .consS k v rest, parent, nested =>
      (newkey parent k, v) :: flatten_go rest parent nested
  | .consO k sub rest, parent, nested =>
      if nested then
        pyDictL (flatten_go sub (newkey parent k) nested) ++ flatten_go rest parent nested
      else
        (newkey parent k, pyStr (.vo sub)) :: flatten_go rest parent nested

/-- Embedding of `flatten_dict(data, parent_key, sep=".", nested)`: returns
`dict(items)`. -/
def flatten_dict (data : JObj) (parent : Str) (nested : Bool) : List (Str × Str) :=
  pyDictL (flatten_go data parent nested)

/-- The inner loop of `unflatten_dict` for one flat key already split into
parts: walk/create intermediate dicts and set the last part.  Walking into a
string value raises `TypeError` in Python (string indexing/assignment), which
is modelled by `none`.  `split` never returns an empty list, so the `[]` case
is unreachable. -/
def insertParts : JObj → List Str → Str → Option JObj
  | _, [], _ => none
  | t, p :: rest, v =>
    match rest with
    | [] => some (updateJ t p (.vs v))
    | _ :: _ =>
      match lookupJ t p with
      | some (.vo sub) => (insertParts sub rest v).map (fun s => updateJ t p (.vo s))
      | some (.vs _) => none
      | none => (insertParts .nil rest v).map (fun s => updateJ t p (.vo s))

/-- Build a dict of string leaves from a flat association list (the flat-mode
`dict(flat_data)` of `unflatten_dict`, after `pyDictL`). -/
def ofPairs : List (Str × Str) → JObj
  | [] => .nil
  | (k, v) :: rest => .consS k v (ofPairs rest)

/-- Embedding of `unflatten_dict(flat_data, sep=".", nested)` (`json_handler.py` lines
51-83).  `none` models the `TypeError` Python raises when a path walks
through an existing string value. -/
def unflatten_dict (flat : List (Str × Str)) (nested : Bool) : Option JObj :=
  if !nested then some (ofPairs (pyDictL flat))
  else flat.foldlM (fun acc kv => insertParts acc (splitSep '.' kv.1) kv.2) .nil

/-- The traversal loop of `get_nested_value`: `current = current[part]` for
each part.  A missing key raises `KeyError` and indexing a string raises
`TypeError`; both are modelled by `none`. -/
def getParts : JObj → List Str → Option JVal
  | t, [] => some (.vo t)
  | t, p :: rest =>
    match rest with
    | [] => lookupJ t p
    | _ :: _ =>
      match lookupJ t p with
      | some (.vo sub) => getParts sub rest
      | _ => none

/-- Embedding of `get_nested_value(data, flat_key, sep=".", nested)` (`json_handler.py`
lines 86-112). -/
def get_nested_value (data : JObj) (flat_key : Str) (nested : Bool) : Option JVal :=
  if !nested then lookupJ data flat_key
  else getParts data (splitSep '.' flat_key)

/-- The walking loop of `set_nested_value` over the (deep-copied) result:
create missing intermediate dicts, then assign the last part.  Walking into
an existing string value raises `TypeError` in Python, modelled by `none`. -/
def setParts : JObj → List Str → JVal → Option JObj
  | _, [], _ => none
  | t, p :: rest, v =>
    match rest with
    | [] => some (updateJ t p v)
    | _ :: _ =>
      match lookupJ t p with
      | some (.vo sub) => (setParts sub rest v).map (fun s => updateJ t p (.vo s))
      | some (.vs _) => none
      | none => (setParts .nil rest v).map (fun s => updateJ t p (.vo s))

/-- Embedding of `set_nested_value(data, flat_key, value, sep=".", nested)`
(`json_handler.py` lines 115-145): the Python function deep-copies its input
and mutates only the copy, so it is a pure function from the old tree to the
new one. -/
def set_nested_value (data : JObj) (flat_key : Str) (value : JVal) (nested : Bool) :
    Option JObj :=
  if !nested then some (updateJ data flat_key value)
  else setParts data (splitSep '.' flat_key) value

/-! ## `utils/validators.py`

Python `set[str]` values are modelled as insertion-ordered duplicate-free
lists (`setAdd`/`setOfList`); every use of such a set downstream is
order-insensitive (difference, emptiness, `sorted`), so the representation
order never influences a result.  The regular expressions of the source are
implemented as explicit scanners with the same leftmost, greedy,
non-overlapping match semantics on the ASCII texts the tool processes.
Scanners that jump past a match carry a fuel argument; fuel `length + 1`
always suffices since every step consumes at least one character. -/

def setAdd (s : List Str) (x : Str) : List Str :=
  if s.contains x then s else s ++ [x]

def setOfList (l : List Str) : List Str := l.foldl setAdd []

def setUnion (a b : List Str) : List Str := b.foldl setAdd a

def setDiff (a b : List Str) : List Str := a.filter (fun x => !(b.contains x))

def endsList (pat s : Str) : Bool := startsList pat.reverse s.reverse

def isLowerAZ (c : Char) : Bool := 'a' ≤ c && c ≤ 'z'

def isUpperAZ (c : Char) : Bool := 'A' ≤ c && c ≤ 'Z'

def isDigit09 (c : Char) : Bool := '0' ≤ c && c ≤ '9'

def isLowerDigit (c : Char) : Bool := isLowerAZ c || isDigit09 c

def isAlnumC (c : Char) : Bool := isLowerAZ c || isUpperAZ c || isDigit09 c

def isWordC (c : Char) : Bool := isAlnumC c || c = '_'

/-- Matches of `re.findall(r"\{\{[^}]+\}\}", text)`: leftmost non-overlapping
double-brace blocks with a nonempty brace-free body. -/
def findDB : Nat → Str → List Str
  | 0, _ => []
  | _ + 1, [] => []
  | fuel + 1, c :: rest =>
    match c, rest with
    | '{', '{' :: r2 =>
      let run := r2.takeWhile (· ≠ '}')
      let after := r2.drop run.length
      (match run, after with
       | _ :: _, '}' :: '}' :: tail =>
          ('{' :: '{' :: run ++ ['}', '}']) :: findDB fuel tail
       | _, _ => findDB fuel rest)
    | _, _ => findDB fuel rest

/-- The brace scan of `extract_placeholders` (`validators.py` lines 44-77):
walk the text with a depth counter, emitting every block that opens at depth
zero, outer braces included; an unclosed block is never emitted, and a `}` at
depth zero is ignored. -/
def scanB : Str → Nat → Str → List Str
  | [], _, _ => []
  | c :: rest, 0, _ =>
      if c = '{' then scanB rest 1 ['{'] else scanB rest 0 []
  | c :: rest, d + 1, acc =>
      if c = '{' then scanB rest (d + 2) (acc ++ ['{'])
      else if c = '}' then
        (if d = 0 then (acc ++ ['}']) :: scanB rest 0 []
         else scanB rest d (acc ++ ['}']))
      else scanB rest (d + 1) (acc ++ [c])

/-- Embedding of `extract_placeholders(text)` (`validators.py` lines 26-83), with fuel for
the recursion into the remainder of an ICU block; that remainder is at least
three characters shorter than the enclosing text, so fuel `length + 1` is
never exhausted. -/
def extract_placeholders_fuel : Nat → Str → List Str
  | 0, _ => []
  | fuel + 1, text =>
    let base := (findDB (text.length + 1) text).foldl setAdd []
    let withBlocks := (scanB text 0 []).foldl (fun s block =>
      if startsList (S "\x7b\x7b") block && endsList (S "\x7d\x7d") block then s
      else if block.contains ',' then
        match splitMax1 ',' ((block.drop 1).dropLast) with
        | varPart :: restPart :: _ =>
            setUnion (setAdd s ('{' :: pyStrip varPart ++ ['}']))
              (extract_placeholders_fuel fuel restPart)
        | _ => s
      else
        let content := pyStrip ((block.drop 1).dropLast)
        if !content.isEmpty && !(content.contains ' ') then setAdd s block else s)
      base
    if text.contains '#' &&
        (containsSub (S "plural") text || containsSub (S "selectordinal") text) then
      setAdd withBlocks (S "#")
    else withBlocks

def extract_placeholders (text : Str) : List Str :=
  extract_placeholders_fuel (text.length + 1) text

/-- Matches of `re.findall(r"</?[a-zA-Z0-9]+[^>]*>", text)`: leftmost non-overlapping
tag-shaped spans. -/
def findTags : Nat → Str → List Str
  | 0, _ => []
  | _ + 1, [] => []
  | fuel + 1, c :: rest =>
    if c = '<' then
      let sl : Str × Str := match rest with
        | '/' :: r => (['/'], r)
        | _ => ([], rest)
      let als := sl.2.takeWhile isAlnumC
      if als.isEmpty then findTags fuel rest
      else
        let r2 := sl.2.drop als.length
        let mid := r2.takeWhile (· ≠ '>')
        match r2.drop mid.length with
        | '>' :: tail => ('<' :: sl.1 ++ als ++ mid ++ ['>']) :: findTags fuel tail
        | _ => findTags fuel rest
    else findTags fuel rest

/-- Embedding of `extract_tags(text)` (`validators.py` lines 86-89). -/
def extract_tags (text : Str) : List Str :=
  setOfList (findTags (text.length + 1) text)

/-- The `(?:SEP[a-z0-9]+)+` tail of the snake-case and dotted-name patterns:
greedily consume groups of the separator followed by a nonempty
lowercase/digit run, returning the consumed span and the remainder. -/
def sepGroups (sepC : Char) : Nat → Str → Str × Str
  | 0, s => ([], s)
  | fuel + 1, s =>
    match s with
    | c :: r =>
      if c = sepC then
        let run := r.takeWhile isLowerDigit
        if run.isEmpty then ([], s)
        else
          let p := sepGroups sepC fuel (r.drop run.length)
          (c :: run ++ p.1, p.2)
      else ([], s)
    | [] => ([], s)

/-- Is the word boundary `\b` satisfied at the start of `rem` (end of text or
a non-word character)? -/
def atBoundary : Str → Bool
  | [] => true
  | c :: _ => !isWordC c

/-- One attempted match of `\b[a-z][a-z0-9]*(?:_[a-z0-9]+)+\b` or
`\b[a-z0-9]+(?:\.[a-z0-9]+)+\b` starting at character `c0`: the greedy runs
are forced (every backtracking alternative places a boundary between two word
characters), so maximal munch plus the final boundary test is exact. -/
def trySep (sepC : Char) (firstClass : Char → Bool) (c0 : Char) (rest : Str) :
    Option (Str × Str) :=
  if firstClass c0 then
    let run0 := rest.takeWhile isLowerDigit
    let r1 := rest.drop run0.length
    let p := sepGroups sepC (r1.length + 1) r1
    if !p.1.isEmpty && atBoundary p.2 then some (c0 :: run0 ++ p.1, p.2) else none
  else none

/-- One attempted match of `\b[a-z][a-z0-9]+[A-Z][a-zA-Z0-9]+\b` starting at
character `c0`. -/
def tryCamel (c0 : Char) (rest : Str) : Option (Str × Str) :=
  if isLowerAZ c0 then
    let b := rest.takeWhile isLowerDigit
    if b.isEmpty then none
    else
      match rest.drop b.length with
      | u :: r2 =>
        if isUpperAZ u then
          let cpart := r2.takeWhile isAlnumC
          if !cpart.isEmpty && atBoundary (r2.drop cpart.length) then
            some (c0 :: b ++ u :: cpart, r2.drop cpart.length)
          else none
        else none
      | [] => none
  else none

/-- The `re.findall` driver for the word patterns: only positions satisfying the
leading `\b` are tried, and scanning resumes after each match. -/
def scanWords (try1 : Char → Str → Option (Str × Str)) : Nat → Str → Bool → List Str
  | 0, _, _ => []
  | _ + 1, [], _ => []
  | fuel + 1, c :: rest, prevW =>
      if !prevW then
        match try1 c rest with
        | some (tok, rem) => tok :: scanWords try1 fuel rem true
        | none => scanWords try1 fuel rest (isWordC c)
      else scanWords try1 fuel rest (isWordC c)

/-- Embedding of `extract_technical_terms(text)` (`validators.py` lines 92-103). -/
def extract_technical_terms (text : Str) : List Str :=
  setOfList
    (scanWords (trySep '_' isLowerAZ) (text.length + 1) text false ++
     scanWords tryCamel (text.length + 1) text false ++
     scanWords (trySep '.' isLowerDigit) (text.length + 1) text false)

/-- One attempted match of `\{\s*\w+,\s*KW\s*,` just after a `{`. -/
def icuTryAt (kw : Str) (r : Str) : Bool :=
  let r1 := r.dropWhile isWS
  let w := r1.takeWhile isWordC
  if w.isEmpty then false
  else
    match r1.drop w.length with
    | ',' :: r2 =>
        let r3 := r2.dropWhile isWS
        if startsList kw r3 then
          match (r3.drop kw.length).dropWhile isWS with
          | ',' :: _ => true
          | _ => false
        else false
    | _ => false

/-- Embedding of the search `re.search(rf"\{{\s*\w+,\s*{keyword}\s*,", text)` as a Boolean. -/
def icuSearchKw (kw : Str) : Str → Bool
  | [] => false
  | c :: rest => (c = '{' && icuTryAt kw rest) || icuSearchKw kw rest

/-- Embedding of `extract_icu_keywords(text)` (`validators.py` lines 106-129). -/
def extract_icu_keywords (text : Str) : List Str :=
  [S "plural", S "select", S "selectordinal"].foldl
    (fun s kw => if icuSearchKw kw text then setAdd s kw else s) []

structure ValidationResult where
  is_valid : Bool
  errors : List Str
  warnings : List Str
deriving DecidableEq, Repr

/-- Python `", ".join(l)`. -/
def joinCS : List Str → Str
  | [] => []
  | [x] => x
  | x :: rest => x ++ ',' :: ' ' :: joinCS rest

/-- Embedding of `validate_placeholders(original, translated)` (`validators.py` lines
132-197).  Note that for placeholders only the direction original-minus
translated is tested, while tags are tested in both directions. -/
def validate_placeholders (original translated : Str) : ValidationResult :=
  let orig_placeholders := extract_placeholders original
  let trans_placeholders := extract_placeholders translated
  let missing := setDiff orig_placeholders trans_placeholders
  let errors1 : List Str :=
    if !missing.isEmpty then
      [S "Missing or modified placeholders: " ++ joinCS (sortStr missing)]
    else []
  let orig_tags := extract_tags original
  let trans_tags := extract_tags translated
  let missing_tags := setDiff orig_tags trans_tags
  let errors2 :=
    if !missing_tags.isEmpty then
      errors1 ++ [S "Missing tags: " ++ joinCS (sortStr missing_tags)]
    else errors1
  let extra_tags := setDiff trans_tags orig_tags
  let errors3 :=
    if !extra_tags.isEmpty then
      errors2 ++ [S "Extra tags found: " ++ joinCS (sortStr extra_tags)]
    else errors2
  let orig_tech := extract_technical_terms original
  let trans_tech := extract_technical_terms translated
  let missing_tech := setDiff orig_tech trans_tech
  let warnings1 : List Str :=
    if !missing_tech.isEmpty then
      [S "Technical terms missing or translated: " ++ joinCS (sortStr missing_tech)]
    else []
  let orig_keywords := extract_icu_keywords original
  let trans_keywords := extract_icu_keywords translated
  let missing_keywords := setDiff orig_keywords trans_keywords
  let errors4 :=
    if !missing_keywords.isEmpty then
      errors3 ++ [S "ICU keywords lost: " ++ joinCS (sortStr missing_keywords)]
    else errors3
  let warnings2 :=
    if !orig_keywords.isEmpty && trans_keywords.isEmpty then
      warnings1 ++ [S "ICU syntax appears to be completely translated/broken"]
    else warnings1
  ⟨errors4.isEmpty, errors4, warnings2⟩

/-- One-decimal rendering of `a / b` for the length-ratio warning message:
the exact rational rounded to one decimal (Python formats the IEEE quotient
with `:.1f`; no claim depends on this text). -/
def ratio1 (a b : Nat) : Str :=
  if b = 0 then S "inf"
  else
    let t10 := (a * 10) / b
    let r := (a * 10) % b
    let t := if 2 * r > b then t10 + 1
             else if 2 * r < b then t10
             else if t10 % 2 = 0 then t10 else t10 + 1
    (Nat.toDigits 10 (t / 10)) ++ '.' :: (Nat.toDigits 10 (t % 10))

/-- The error and warning lists accumulated by `validate_translation`
(`validators.py` lines 212-230) before the strict-mode promotion: the
placeholder validation result extended with the empty-translation error and
the unchanged-text and excessive-length warnings. -/
def validation_core (original translated : Str) : List Str × List Str :=
  let result := validate_placeholders original translated
  let errors1 := result.errors
  let warnings1 := result.warnings
  let errors2 :=
    if (pyStrip translated).isEmpty then errors1 ++ [S "Translation is empty"]
    else errors1
  let warnings2 :=
    if pyStrip original = pyStrip translated ∧ original.length > 3 then
      warnings1 ++ [S "Translation unchanged (possible failure)"]
    else warnings1
  let warnings3 :=
    if translated.length > original.length * 3 ∧ original.length > 10 then
      warnings2 ++
        [S "Translation is " ++ ratio1 translated.length original.length ++
         S "x longer than original"]
    else warnings2
  (errors2, warnings3)

/-- Embedding of `validate_translation(original, translated, strict)` (`validators.py`
lines 200-239): in strict mode a nonempty warning list is appended to the
errors and cleared, and validity is emptiness of the final error list. -/
def validate_translation (original translated : Str) (strict : Bool) :
    ValidationResult :=
  let c := validation_core original translated
  let p :=
    if strict ∧ c.2 ≠ [] then (c.1 ++ c.2, ([] : List Str))
    else c
  ⟨p.1.isEmpty, p.1, p.2⟩

/-! ## `core/translator.py` — batch orchestration

The external model is represented by three oracles: `inputLen` gives the
token length of the tokenized batch prompt built from a unit list (the
processor and chat template are external I/O), `gen` gives the decoded
generation for a batch prompt, and `tr1` is `translate` (one single-unit
model call).  The oracles are total functions: the exception fallback path of
the source is outside the model. -/

/-- The line-scanning loop of `_parse_batch_result` (`translator.py` lines
343-356), before the final truncation: split the stripped response on
newlines; a stripped line that is nonempty and starts with a digit (the
redundant `startswith("1")` test is kept as written) contributes the part
after the first `.` if the line contains one, else the part after the first
`)` if any, trimmed — otherwise the whole stripped line. -/
def parse_batch_lines (result : Str) : List Str :=
  (splitSep '\n' (pyStrip result)).foldl (fun acc rawLine =>
    let line := pyStrip rawLine
    if !line.isEmpty && (isDigit09 (line.headD ' ') || startsList (S "1") line) then
      let parts := if line.contains '.' then splitMax1 '.' line else splitMax1 ')' line
      match parts with
      | [_, p1] => acc ++ [pyStrip p1]
      | _ => acc ++ [line]
    else acc) []

/-- Embedding of `_parse_batch_result(result, expected_count)` (`translator.py` lines
332-357): the scanned translations truncated to the first
`expected_count`. -/
def parse_batch_result (result : Str) (expected_count : Nat) : List Str :=
  (parse_batch_lines result).take expected_count

/-- The recursion of `translate_batch` (`translator.py` lines 206-330) with a
structural fuel: each recursive call receives a strictly shorter list, so
fuel equal to the initial list length is never exhausted (see
`translate_batch`). -/
def translate_batch_fuel (inputLen : List Str → Nat) (gen : List Str → Str)
    (tr1 : Str → Str) : Nat → List Str → List Str
  | 0, _ => []
  | _ + 1, [] => []
  | _ + 1, [t] => [tr1 t]
  | fuel + 1, texts@(_ :: _ :: _) =>
      if inputLen texts > 18000 then
        let mid := texts.length / 2
        translate_batch_fuel inputLen gen tr1 fuel (texts.take mid) ++
          translate_batch_fuel inputLen gen tr1 fuel (texts.drop mid)
      else
        let translations := parse_batch_result (gen texts) texts.length
        if translations.length ≠ texts.length then texts.map tr1 else translations

/-- Embedding of `translate_batch(texts, ...)`: empty list short-circuit, single-text
direct call, context-overflow midpoint splitting, numbered-result parsing,
and count-mismatch fallback to per-unit calls. -/
def translate_batch (inputLen : List Str → Nat) (gen : List Str → Str)
    (tr1 : Str → Str) (texts : List Str) : List Str :=
  translate_batch_fuel inputLen gen tr1 texts.length texts

/-! ## `services/file_service.py` -/

/-- The core of `find_missing_keys` (`file_service.py` lines 104-142) once
both language files are loaded: flatten both trees (nested mode, the
function default), report a source key when it is absent from the target or
its target value is identical to the source value, and sort the report. -/
def find_missing_keys (source_data target_data : JObj) : List Str :=
  let source_data_flat := flatten_dict source_data [] true
  let target_data_flat := flatten_dict target_data [] true
  let missing := source_data_flat.foldl (fun acc kv =>
    if !(memL kv.1 target_data_flat) || lookupL target_data_flat kv.1 = some kv.2
    then acc ++ [kv.1] else acc) []
  sortStr missing

/-! ## `order_like_source` -/

/-- The entries of `target` whose key does not occur in `source`, in their
target order (the appended tail of the order-preserving merge). -/
def targetOnly : JObj → JObj → JObj
  | .nil, _ => .nil
  | .consS k v rest, source =>
      if memKey k source then targetOnly rest source
      else .consS k v (targetOnly rest source)
  | .consO k s rest, source =>
      if memKey k source then targetOnly rest source
      else .consO k s (targetOnly rest source)

/-- Modelled from the spec: `order_like_source` is imported from
`translate_intl.utils.json_handler` and exercised by
`tests/test_json_handler.py`, but the sources contain no definition of it.
Following §4.5 of the spec, this walks the source in order: a key whose
source value is a nested tree (in nested mode) recurses into the
corresponding target subtree, defaulting to an empty object when the target
has none; any other source key takes the target value when present and is
skipped otherwise (leaf values always come from the target); in flat mode no
recursion happens.  `order_like_source` appends the target-only keys in
their target order. -/
def olsEntries : JObj → JObj → Bool → JObj
  | .nil, _, _ => .nil
  | .consS k _ rest, target, nested =>
      (match lookupJ target k with
       | some (.vs w) => JObj.consS k w (olsEntries rest target nested)
       | some (.vo s) => JObj.consO k s (olsEntries rest target nested)
       | none => olsEntries rest target nested)
  | .consO k sub rest, target, nested =>
      if nested then
        let tsub := match lookupJ target k with
          | some (.vo ts) => ts
          | _ => JObj.nil
        JObj.consO k (appendJ (olsEntries sub tsub true) (targetOnly tsub sub))
          (olsEntries rest target nested)
      else
        (match lookupJ target k with
         | some (.vs w) => JObj.consS k w (olsEntries rest target nested)
         | some (.vo s) => JObj.consO k s (olsEntries rest target nested)
         | none => olsEntries rest target nested)

/-- Modelled from the spec (see `olsEntries`): `mergeOrdered(source, target,
mode)` of §4.5. -/
def order_like_source (source target : JObj) (nested : Bool) : JObj :=
  appendJ (olsEntries source target nested) (targetOnly target source)

/-- The part of a string after the first occurrence of a separator (the whole
remainder is empty when the separator does not occur). -/
def afterFirst (sep : Char) : Str → Str
  | [] => []
  | c :: r => if c = sep then r else afterFirst sep r

/-- The amended per-line rule implemented by the source: a stripped line
contributes exactly when it is nonempty and starts with a digit; the
contribution is the trimmed text after the first `.` when the line contains
one, else after the first `)` when the line contains one, else the whole
stripped line. -/
def contribLine (rawLine : Str) : Option Str :=
  let line := pyStrip rawLine
  if line.isEmpty then none
  else if isDigit09 (line.headD ' ') then
    some (if line.contains '.' then pyStrip (afterFirst '.' line)
          else if line.contains ')' then pyStrip (afterFirst ')' line)
          else line)
  else none

/-- Does the walking loop of `set_nested_value` avoid every string-valued
intermediate on this path?  When it does not, Python raises `TypeError`. -/
def pathOkB : JObj → List Str → Bool
  | _, [] => true
  | t, p :: rest =>
    match rest with
    | [] => true
    | _ :: _ =>
      match lookupJ t p with
      | some (.vs _) => false
      | some (.vo sub) => pathOkB sub rest
      | none => true

/-- Does every source key at this level have a target entry to take its
value from, or (in nested mode) a nested source value that forces a merged
subtree?  Keys failing this are skipped by `olsEntries`, since a leaf value
can only come from the target. -/
def srcCovered : JObj → JObj → Bool → Bool
  | .nil, _, _ => true
  | .consS k _ rest, target, nested =>
      memKey k target && srcCovered rest target nested
  | .consO k _ rest, target, nested =>
      (nested || memKey k target) && srcCovered rest target nested

/-- The claim-side well-formedness condition for the nested round trip:
at every level keys are nonempty, contain no separator, and are unique
(Python dicts cannot duplicate keys), and no nested object is empty. -/
def goodB : JObj → Bool
  | .nil => true
  | .consS k _ rest =>
      !k.isEmpty && !(k.contains '.') && !(memKey k rest) && goodB rest
  | .consO k sub rest =>
      !k.isEmpty && !(k.contains '.') && !(memKey k rest) &&
      !(decide (sub = JObj.nil)) && goodB sub && goodB rest

/-- The claim-side condition for the flat-mode round trip: unique top-level
keys and only string leaves (flat `flatten_dict` stringifies object values,
which flat `unflatten_dict` cannot undo). -/
def flatOkB : JObj → Bool
  | .nil => true
  | .consS k _ rest => !(memKey k rest) && flatOkB rest
  | .consO _ _ _ => false

/-- Depth-first (path, value) listing of a tree (proof-side view of the
flattening traversal). -/
def flattenPaths : JObj → List (List Str × Str)
  | .nil => []
  | .consS k v rest => ([k], v) :: flattenPaths rest
  | .consO k sub rest =>
      (flattenPaths sub).map (fun pv => (k :: pv.1, pv.2)) ++ flattenPaths rest

/-- Fold the key construction of `flatten_dict` along a path. -/
def joinKey (parent : Str) (path : List Str) : Str :=
  path.foldl newkey parent

/-- The item list of the nested flattening, via paths. -/
def pathItems (T : JObj) (parent : Str) : List (Str × Str) :=
  (flattenPaths T).map (fun pv => (joinKey parent pv.1, pv.2))

/-- The insertion loop of nested `unflatten_dict` over pre-split paths. -/
def foldInsertP (L : List (List Str × Str)) (t : JObj) : Option JObj :=
  L.foldlM (fun acc pv => insertParts acc pv.1 pv.2) t

/-- A path as produced by flattening a well-formed tree: nonempty, with
nonempty separator-free segments. -/
def goodPath (p : List Str) : Prop :=
  p ≠ [] ∧ ∀ part ∈ p, part ≠ [] ∧ '.' ∉ part

/-- The flat item list of a leaf-only tree (proof-side helper for the
flat-mode round trip). -/
def toPairs : JObj → List (Str × Str)
  | .nil => []
  | .consS k v rest => (k, v) :: toPairs rest
  | .consO _ _ rest => toPairs rest

/-! ## Helper lemmas -/

theorem splitMax1_of_not_contains {sep : Char} {s : Str}
    (h : s.contains sep = false) : splitMax1 sep s = [s] := by
  induction s with
  | nil => rfl
  | cons c r ih =>
    simp only [List.contains_cons, Bool.or_eq_false_iff] at h
    obtain ⟨h1, h2⟩ := h
    have hc : ¬ c = sep := by
      intro he
      subst he
      simp at h1
    simp only [splitMax1, if_neg hc, ih h2]

theorem splitMax1_of_contains {sep : Char} {s : Str}
    (h : s.contains sep = true) :
    ∃ pre, splitMax1 sep s = [pre, afterFirst sep s] := by
  induction s with
  | nil => simp at h
  | cons c r ih =>
    by_cases hc : c = sep
    · subst hc
      exact ⟨[], by simp [splitMax1, afterFirst]⟩
    · have hr : r.contains sep = true := by
        simp only [List.contains_cons] at h
        rcases Bool.or_eq_true_iff.mp h with h' | h'
        · exact absurd (beq_iff_eq.mp h').symm hc
        · exact h'
      obtain ⟨pre, hpre⟩ := ih hr
      exact ⟨c :: pre, by simp [splitMax1, if_neg hc, hpre, afterFirst, hc]⟩

theorem startsList_one_head {l : Str} (h : startsList (S "1") l = true) :
    isDigit09 (l.headD ' ') = true := by
  cases l with
  | nil => simp [S, startsList] at h
  | cons c cs =>
    have hc : '1' = c := by
      simpa [S, startsList, Bool.and_eq_true] using h
    subst hc
    exact (by decide : isDigit09 '1' = true)

/-! ## C3 -/

/-- C3: `extract_placeholders` returns exactly the set `{"{name}"}` on
`"Hello {name}"`, exactly `{"{count}", "#"}` on the plural ICU message,
exactly `{"{{user}}"}` on `"Hello {{user}}"`, and the empty set on
`"No placeholders here"`. -/
theorem C3_structural_tokens :
    (extract_placeholders (S "Hello \x7bname\x7d")).toFinset = {S "\x7bname\x7d"} ∧
    (extract_placeholders
        (S "\x7bcount, plural, one \x7b# item\x7d other \x7b# items\x7d\x7d")).toFinset
      = {S "\x7bcount\x7d", S "#"} ∧
    (extract_placeholders (S "Hello \x7b\x7buser\x7d\x7d")).toFinset
      = {S "\x7b\x7buser\x7d\x7d"} ∧
    (extract_placeholders (S "No placeholders here")).toFinset = ∅ := by
  refine ⟨by decide, by decide, by decide, by decide⟩

/-! ## C4 -/

/-- C4: evaluating the code at the failing input.  The candidate
`"Hola {name}"` contains the placeholder `{name}`, which is absent from the
original `"Hello"`, yet `validate_translation` (strict) reports no error and
returns `is_valid = true`: the extra-placeholder direction required by the
claim (and by the docstring of `validate_placeholders`, check 2) is not
implemented — only the original-minus-candidate difference is tested. -/
theorem C4_extra_placeholder_accepted :
    validate_translation (S "Hello") (S "Hola \x7bname\x7d") true
      = ⟨true, [], []⟩ ∧
    extract_placeholders (S "Hello") = [] ∧
    extract_placeholders (S "Hola \x7bname\x7d") = [S "\x7bname\x7d"] := by
  refine ⟨by decide, by decide, by decide⟩

/-! ## C10 -/

/-- C10: with `strict = true` the returned warning list is always empty —
every warning generated by the pre-promotion pass (`validation_core`) is
promoted into the error list — and the result is invalid whenever that pass
generated any error or any warning. -/
theorem C10_strict_promotion (o t : Str) :
    (validate_translation o t true).warnings = [] ∧
    (validate_translation o t true).errors
      = (validation_core o t).1 ++ (validation_core o t).2 ∧
    ((validation_core o t).1 ≠ [] ∨ (validation_core o t).2 ≠ [] →
      (validate_translation o t true).is_valid = false) := by
  unfold validate_translation
  rcases hc : validation_core o t with ⟨E, W⟩
  cases W with
  | nil =>
    refine ⟨by simp, by simp, ?_⟩
    rintro (hE | hW)
    · cases E with
      | nil => exact absurd rfl hE
      | cons e es => simp
    · exact absurd rfl hW
  | cons w ws =>
    refine ⟨by simp, by simp, ?_⟩
    intro _
    simp

/-- Witness for C10 at a concrete pair that generates a warning: an
unchanged five-character translation is rejected in strict mode. -/
theorem C10_strict_promotion_witness :
    (validate_translation (S "hello") (S "hello") true).is_valid = false :=
  (C10_strict_promotion (S "hello") (S "hello")).2.2 (Or.inr (by decide))

/-! ## C6 -/

/-- C6 counterexample: by the claim, a line must begin with a numeral
immediately followed by `.` or `)` to contribute, and the contribution is
what follows that marker.  The code accepts any line whose first character is
a digit — `"5 items"` contributes itself in full — and when a `.` occurs
anywhere in the line the code splits at that first `.`, so `"1) Hi. Bye"`
contributes `"Bye"` instead of `"Hi. Bye"`. -/
theorem C6_numeral_line_cex :
    parse_batch_result (S "5 items") 1 = [S "5 items"] ∧
    parse_batch_result (S "1) Hi. Bye") 1 = [S "Bye"] ∧
    (S "5 items") ≠ ([] : Str) ∧ S "Bye" ≠ S "Hi. Bye" := by
  refine ⟨by decide, by decide, by decide, by decide⟩

theorem parse_step_eq_contrib (acc : List Str) (rawLine : Str) :
    (let line := pyStrip rawLine
     if !line.isEmpty && (isDigit09 (line.headD ' ') || startsList (S "1") line) then
       let parts := if line.contains '.' then splitMax1 '.' line else splitMax1 ')' line
       match parts with
       | [_, p1] => acc ++ [pyStrip p1]
       | _ => acc ++ [line]
     else acc)
    = acc ++ (contribLine rawLine).toList := by
  simp only [contribLine]
  cases hemp : (pyStrip rawLine).isEmpty with
  | true => simp [hemp]
  | false =>
    cases hdig : isDigit09 ((pyStrip rawLine).headD ' ') with
    | true =>
      cases hdot : (pyStrip rawLine).contains '.' with
      | true =>
        obtain ⟨pre, hpre⟩ := splitMax1_of_contains hdot
        simp only [hemp, hdig, hdot, hpre]
        simp
      | false =>
        cases hpar : (pyStrip rawLine).contains ')' with
        | true =>
          obtain ⟨pre, hpre⟩ := splitMax1_of_contains hpar
          simp only [hemp, hdig, hdot, hpar, hpre]
          simp
        | false =>
          simp only [hemp, hdig, hdot, hpar, splitMax1_of_not_contains hpar]
          simp
    | false =>
      have hone : startsList (S "1") (pyStrip rawLine) = false := by
        cases h1 : startsList (S "1") (pyStrip rawLine)
        · rfl
        · rw [startsList_one_head h1] at hdig
          exact absurd hdig (by simp)
      simp only [hemp, hdig, hone]
      simp

theorem parse_lines_eq_filterMap (result : Str) :
    parse_batch_lines result
      = (splitSep '\n' (pyStrip result)).filterMap contribLine := by
  unfold parse_batch_lines
  generalize splitSep '\n' (pyStrip result) = lines
  suffices h : ∀ (ls : List Str) (acc : List Str),
      ls.foldl (fun acc rawLine =>
        let line := pyStrip rawLine
        if !line.isEmpty && (isDigit09 (line.headD ' ') || startsList (S "1") line) then
          let parts := if line.contains '.' then splitMax1 '.' line
                       else splitMax1 ')' line
          match parts with
          | [_, p1] => acc ++ [pyStrip p1]
          | _ => acc ++ [line]
        else acc) acc
      = acc ++ ls.filterMap contribLine by
    simpa using h lines []
  intro ls
  induction ls with
  | nil => intro acc; simp
  | cons l ls ih =>
    intro acc
    simp only [List.foldl_cons, List.filterMap_cons]
    rw [parse_step_eq_contrib acc l, ih]
    cases h : contribLine l <;> simp [h]

/-- C6 (amended): `_parse_batch_result` equals the amended per-line rule
(`contribLine`) applied to the newline-split stripped response, in line
order, truncated to the expected count. -/
theorem C6_parse_lines_amended (result : Str) (expected : Nat) :
    parse_batch_result result expected
      = ((splitSep '\n' (pyStrip result)).filterMap contribLine).take expected := by
  unfold parse_batch_result
  rw [parse_lines_eq_filterMap]

/-! ## C7 -/

theorem tbf_length (inputLen : List Str → Nat) (gen : List Str → Str)
    (tr1 : Str → Str) :
    ∀ (fuel : Nat) (texts : List Str), texts.length ≤ fuel →
      (translate_batch_fuel inputLen gen tr1 fuel texts).length = texts.length := by
  intro fuel
  induction fuel with
  | zero =>
    intro texts h
    have : texts = [] := List.eq_nil_of_length_eq_zero (Nat.le_zero.mp h)
    subst this
    rfl
  | succ f ih =>
    intro texts h
    match texts with
    | [] => rfl
    | [t] => rfl
    | a :: b :: r =>
      simp only [translate_batch_fuel]
      by_cases hover : inputLen (a :: b :: r) > 18000
      · rw [if_pos hover]
        have hn : (a :: b :: r).length = r.length + 2 := by simp
        have hmid1 : ((a :: b :: r).take ((a :: b :: r).length / 2)).length ≤ f := by
          simp only [List.length_take]
          simp only [List.length_cons] at h ⊢
          omega
        have hmid2 : ((a :: b :: r).drop ((a :: b :: r).length / 2)).length ≤ f := by
          simp only [List.length_drop]
          simp only [List.length_cons] at h ⊢
          omega
        rw [List.length_append, ih _ hmid1, ih _ hmid2]
        simp only [List.length_take, List.length_drop]
        simp only [List.length_cons] at h ⊢
        omega
      · rw [if_neg hover]
        by_cases hne : (parse_batch_result (gen (a :: b :: r)) (a :: b :: r).length).length
            ≠ (a :: b :: r).length
        · rw [if_pos hne]
          simp
        · rw [if_neg hne]
          simpa using not_ne_iff.mp hne

theorem tbf_fuel_congr (inputLen : List Str → Nat) (gen : List Str → Str)
    (tr1 : Str → Str) :
    ∀ (fuel1 fuel2 : Nat) (texts : List Str),
      texts.length ≤ fuel1 → texts.length ≤ fuel2 →
      translate_batch_fuel inputLen gen tr1 fuel1 texts
        = translate_batch_fuel inputLen gen tr1 fuel2 texts := by
  intro fuel1
  induction fuel1 with
  | zero =>
    intro fuel2 texts h1 _
    have : texts = [] := List.eq_nil_of_length_eq_zero (Nat.le_zero.mp h1)
    subst this
    cases fuel2 <;> rfl
  | succ f1 ih =>
    intro fuel2 texts h1 h2
    match texts with
    | [] => cases fuel2 <;> rfl
    | [t] =>
      match fuel2, h2 with
      | f2 + 1, _ => rfl
    | a :: b :: r =>
      match fuel2, h2 with
      | f2 + 1, h2 =>
        simp only [translate_batch_fuel]
        by_cases hover : inputLen (a :: b :: r) > 18000
        · rw [if_pos hover, if_pos hover]
          have hl1 : ((a :: b :: r).take ((a :: b :: r).length / 2)).length ≤ f1 := by
            simp only [List.length_take]
            simp only [List.length_cons] at h1 ⊢
            omega
          have hl2 : ((a :: b :: r).take ((a :: b :: r).length / 2)).length ≤ f2 := by
            simp only [List.length_take]
            simp only [List.length_cons] at h2 ⊢
            omega
          have hr1 : ((a :: b :: r).drop ((a :: b :: r).length / 2)).length ≤ f1 := by
            simp only [List.length_drop]
            simp only [List.length_cons] at h1 ⊢
            omega
          have hr2 : ((a :: b :: r).drop ((a :: b :: r).length / 2)).length ≤ f2 := by
            simp only [List.length_drop]
            simp only [List.length_cons] at h2 ⊢
            omega
          rw [ih f2 _ hl1 hl2, ih f2 _ hr1 hr2]
        · rw [if_neg hover, if_neg hover]

/-- C7: for every unit list and oracle configuration the recursive midpoint
splitting of `translate_batch` is total (the embedding carries fuel equal to
the list length, which the strictly shrinking halves never exhaust), the
output length always equals the input length, and an over-threshold batch is
exactly the concatenation of the recursive results on the two halves, each
strictly shorter than the input. -/
theorem C7_split_terminates_length (inputLen : List Str → Nat)
    (gen : List Str → Str) (tr1 : Str → Str) (texts : List Str) :
    (translate_batch inputLen gen tr1 texts).length = texts.length ∧
    (2 ≤ texts.length → inputLen texts > 18000 →
      translate_batch inputLen gen tr1 texts
        = translate_batch inputLen gen tr1 (texts.take (texts.length / 2)) ++
          translate_batch inputLen gen tr1 (texts.drop (texts.length / 2)) ∧
      (texts.take (texts.length / 2)).length < texts.length ∧
      (texts.drop (texts.length / 2)).length < texts.length) := by
  constructor
  · exact tbf_length inputLen gen tr1 texts.length texts le_rfl
  · intro h2 hover
    match texts, h2 with
    | a :: b :: r, _ =>
      refine ⟨?_, by simp [List.length_take]; omega, by simp; omega⟩
      show translate_batch_fuel inputLen gen tr1 (r.length + 1 + 1) (a :: b :: r) = _
      simp only [translate_batch_fuel]
      rw [if_pos hover]
      unfold translate_batch
      rw [tbf_fuel_congr inputLen gen tr1 (r.length + 1) _ _
            (by simp [List.length_take]; omega) le_rfl,
          tbf_fuel_congr inputLen gen tr1 (r.length + 1) _ _
            (by simp [List.length_drop]; omega) le_rfl]

/-- Witness for C7: a two-unit list over the context threshold splits into
the two singletons. -/
theorem C7_split_witness :
    (translate_batch (fun _ => 99999) (fun _ => []) (fun s => 'T' :: s)
        [S "a", S "b"]).length = 2 ∧
    translate_batch (fun _ => 99999) (fun _ => []) (fun s => 'T' :: s)
        [S "a", S "b"]
      = translate_batch (fun _ => 99999) (fun _ => []) (fun s => 'T' :: s) [S "a"] ++
        translate_batch (fun _ => 99999) (fun _ => []) (fun s => 'T' :: s) [S "b"] := by
  refine ⟨(C7_split_terminates_length _ _ _ _).1, ?_⟩
  have h := ((C7_split_terminates_length (fun _ => 99999) (fun _ => [])
      (fun s => 'T' :: s) [S "a", S "b"]).2 (by decide) (by decide)).1
  simpa using h

/-! ## C5 -/

/-- C5 counterexample: the model response parses to three numbered lines for
a two-unit batch — strictly more translations than units — yet the batch
result is kept (truncated to the first two), not discarded: the output is
`["A", "B"]` and not the per-unit fallback `["Ta", "Tb"]`. -/
theorem C5_overcount_kept_cex :
    (parse_batch_lines (S "1. A\n2. B\n3. C")).length = 3 ∧
    translate_batch (fun _ => 0) (fun _ => S "1. A\n2. B\n3. C") (fun s => 'T' :: s)
        [S "a", S "b"] = [S "A", S "B"] ∧
    ([S "a", S "b"].map (fun s => 'T' :: s)) ≠ [S "A", S "B"] := by
  refine ⟨by decide, by decide, by decide⟩

/-- C5 (amended): `_parse_batch_result` truncates the parsed translations to
the unit count, so only a parse yielding FEWER translations than units
triggers the per-unit fallback; when at least as many numbered lines appear,
the first `n` are kept.  In both cases the output length equals the input
length. -/
theorem C5_batch_fallback_amended (inputLen : List Str → Nat)
    (gen : List Str → Str) (tr1 : Str → Str) (texts : List Str)
    (h2 : 2 ≤ texts.length) (hfit : ¬ inputLen texts > 18000) :
    ((parse_batch_result (gen texts) texts.length).length ≠ texts.length →
      translate_batch inputLen gen tr1 texts = texts.map tr1) ∧
    ((parse_batch_result (gen texts) texts.length).length = texts.length →
      translate_batch inputLen gen tr1 texts
        = parse_batch_result (gen texts) texts.length) ∧
    (translate_batch inputLen gen tr1 texts).length = texts.length := by
  match texts, h2 with
  | a :: b :: r, _ =>
    refine ⟨?_, ?_, tbf_length inputLen gen tr1 _ _ le_rfl⟩
    · intro hne
      show translate_batch_fuel inputLen gen tr1 (r.length + 1 + 1) (a :: b :: r) = _
      simp only [translate_batch_fuel]
      rw [if_neg hfit, if_pos hne]
    · intro heq
      show translate_batch_fuel inputLen gen tr1 (r.length + 1 + 1) (a :: b :: r) = _
      simp only [translate_batch_fuel]
      rw [if_neg hfit, if_neg (not_ne_iff.mpr heq)]

/-- Witness for C5 (amended): a response with a single numbered line for a
two-unit batch parses to fewer translations than units, so both units are
re-translated individually. -/
theorem C5_batch_fallback_witness :
    translate_batch (fun _ => 0) (fun _ => S "1. A") (fun s => 'T' :: s)
        [S "a", S "b"]
      = [S "a", S "b"].map (fun s => 'T' :: s) :=
  (C5_batch_fallback_amended (fun _ => 0) (fun _ => S "1. A") (fun s => 'T' :: s)
    [S "a", S "b"] (by decide) (by decide)).1 (by decide)

/-! ## C8 -/

theorem lookupJ_updateJ_self (t : JObj) (k : Str) (v : JVal) :
    lookupJ (updateJ t k v) k = some v := by
  induction t with
  | nil => cases v <;> simp [updateJ, lookupJ]
  | consS k' v' rest ih =>
    by_cases hk : k = k'
    · subst hk
      cases v <;> simp [updateJ, lookupJ]
    · cases v <;> simp [updateJ, lookupJ, hk, ih]
  | consO k' s' rest ihs ih =>
    by_cases hk : k = k'
    · subst hk
      cases v <;> simp [updateJ, lookupJ]
    · cases v <;> simp [updateJ, lookupJ, hk, ih]

theorem pathOkB_nil (rest : List Str) : pathOkB .nil rest = true := by
  cases rest with
  | nil => rfl
  | cons p r =>
    cases r with
    | nil => rfl
    | cons q r' => simp [pathOkB, lookupJ]

theorem splitSep_ne_nil (c : Char) (s : Str) : splitSep c s ≠ [] := by
  cases s with
  | nil => simp [splitSep]
  | cons a r =>
    by_cases h : a = c
    · simp [splitSep, h]
    · simp only [splitSep, if_neg h]
      cases hs : splitSep c r with
      | nil => simp
      | cons x xs => simp

theorem setParts_ok :
    ∀ (parts : List Str) (data : JObj) (value : JVal), parts ≠ [] →
      pathOkB data parts = true →
      ∃ t', setParts data parts value = some t' ∧ getParts t' parts = some value := by
  intro parts
  induction parts with
  | nil => intro _ _ h; exact absurd rfl h
  | cons p rest ih =>
    intro data value _ hok
    cases rest with
    | nil =>
      exact ⟨updateJ data p value, rfl, by
        simp [getParts, lookupJ_updateJ_self]⟩
    | cons q r =>
      simp only [pathOkB] at hok
      cases hlk : lookupJ data p with
      | none =>
        obtain ⟨s', hs', hg'⟩ := ih .nil value (by simp) (pathOkB_nil (q :: r))
        refine ⟨updateJ data p (.vo s'), ?_, ?_⟩
        · have hstep : setParts data (p :: q :: r) value
              = (setParts JObj.nil (q :: r) value).map
                  (fun s => updateJ data p (JVal.vo s)) := by
            simp only [setParts, hlk]
          rw [hstep, hs']
          rfl
        · have hstep : getParts (updateJ data p (JVal.vo s')) (p :: q :: r)
              = getParts s' (q :: r) := by
            simp only [getParts, lookupJ_updateJ_self]
          rw [hstep, hg']
      | some val =>
        cases val with
        | vs w => rw [hlk] at hok; simp at hok
        | vo sub =>
          rw [hlk] at hok
          obtain ⟨s', hs', hg'⟩ := ih sub value (by simp) hok
          refine ⟨updateJ data p (.vo s'), ?_, ?_⟩
          · have hstep : setParts data (p :: q :: r) value
                = (setParts sub (q :: r) value).map
                    (fun s => updateJ data p (JVal.vo s)) := by
              simp only [setParts, hlk]
            rw [hstep, hs']
            rfl
          · have hstep : getParts (updateJ data p (JVal.vo s')) (p :: q :: r)
                = getParts s' (q :: r) := by
              simp only [getParts, lookupJ_updateJ_self]
            rw [hstep, hg']

/-- C8 counterexample: the claim promises a new tree for every input, but on
the tree `{"a": "x"}` with key `"a.b"` (nested mode) the walking loop reaches
the string leaf `"x"` and Python raises `TypeError` — no tree is returned. -/
theorem C8_leaf_prefix_cex :
    set_nested_value (.consS (S "a") (S "x") .nil) (S "a.b") (.vs (S "v")) true
      = none := by
  decide

/-- C8 (amended): provided that in nested mode no strict prefix of the key
path resolves to a string leaf (the case in which the code raises
`TypeError`), `set_nested_value` returns a new tree in which the value is
stored at the given path — `get_nested_value` retrieves it — creating any
missing intermediate objects; the input tree itself is unchanged, the
function being pure on the deep copy it returns. -/
theorem C8_set_by_path_amended (data : JObj) (key : Str) (value : JVal)
    (nested : Bool)
    (hok : nested = true → pathOkB data (splitSep '.' key) = true) :
    ∃ t', set_nested_value data key value nested = some t' ∧
      get_nested_value t' key nested = some value := by
  cases nested with
  | false =>
    exact ⟨updateJ data key value, rfl, by
      simp [get_nested_value, lookupJ_updateJ_self]⟩
  | true =>
    obtain ⟨t', hs, hg⟩ :=
      setParts_ok (splitSep '.' key) data value (splitSep_ne_nil '.' key) (hok rfl)
    exact ⟨t', by simpa [set_nested_value] using hs,
      by simpa [get_nested_value] using hg⟩

/-- Witness for C8 at a concrete conflict-free input: setting `"a.b"` in the
empty tree creates the intermediate object and stores the value. -/
theorem C8_set_by_path_witness :
    ∃ t', set_nested_value .nil (S "a.b") (.vs (S "v")) true = some t' ∧
      get_nested_value t' (S "a.b") true = some (.vs (S "v")) :=
  C8_set_by_path_amended .nil (S "a.b") (.vs (S "v")) true (fun _ => by decide)

/-! ## C9 -/

theorem mem_insSorted (a x : Str) (l : List Str) :
    a ∈ insSorted x l ↔ a = x ∨ a ∈ l := by
  induction l with
  | nil => simp [insSorted]
  | cons y ys ih =>
    by_cases h : lexLe x y = true
    · simp [insSorted, h]
    · simp only [insSorted, if_neg h, List.mem_cons, ih]
      tauto

theorem mem_sortStr (a : Str) (l : List Str) : a ∈ sortStr l ↔ a ∈ l := by
  induction l with
  | nil => simp [sortStr]
  | cons x xs ih => simp [sortStr, mem_insSorted, ih]

theorem foldl_append_key_mem (cond : Str × Str → Bool) :
    ∀ (l : List (Str × Str)) (acc : List Str) (k : Str),
      (k ∈ l.foldl (fun acc kv => if cond kv then acc ++ [kv.1] else acc) acc) ↔
        k ∈ acc ∨ ∃ kv, kv ∈ l ∧ kv.1 = k ∧ cond kv = true := by
  intro l
  induction l with
  | nil => simp
  | cons hd tl ih =>
    intro acc k
    simp only [List.foldl_cons, ih]
    by_cases hc : cond hd = true
    · simp only [if_pos hc, List.mem_append, List.mem_singleton]
      constructor
      · rintro ((h | h) | h)
        · exact Or.inl h
        · exact Or.inr ⟨hd, by simp, h.symm, hc⟩
        · obtain ⟨kv, hm, hk, hck⟩ := h
          exact Or.inr ⟨kv, by simp [hm], hk, hck⟩
      · rintro (h | ⟨kv, hm, hk, hck⟩)
        · exact Or.inl (Or.inl h)
        · rcases List.mem_cons.mp hm with he | ht
          · subst he; exact Or.inl (Or.inr hk.symm)
          · exact Or.inr ⟨kv, ht, hk, hck⟩
    · simp only [if_neg hc]
      constructor
      · rintro (h | ⟨kv, hm, hk, hck⟩)
        · exact Or.inl h
        · exact Or.inr ⟨kv, by simp [hm], hk, hck⟩
      · rintro (h | ⟨kv, hm, hk, hck⟩)
        · exact Or.inl h
        · rcases List.mem_cons.mp hm with he | ht
          · subst he; rw [hck] at hc; exact absurd rfl hc
          · exact Or.inr ⟨kv, ht, hk, hck⟩

theorem updateL_keys (acc : List (Str × Str)) (k : Str) (v : Str) :
    (updateL acc k v).map Prod.fst
      = if memL k acc then acc.map Prod.fst else acc.map Prod.fst ++ [k] := by
  induction acc with
  | nil => simp [updateL, memL]
  | cons hd tl ih =>
    obtain ⟨k', v'⟩ := hd
    by_cases hk : k = k'
    · subst hk
      simp [updateL, memL]
    · simp only [updateL, if_neg hk, memL, List.map_cons, ih,
        decide_eq_false hk, Bool.false_or]
      by_cases hm : memL k tl = true
      · simp [hm]
      · simp only [Bool.not_eq_true] at hm
        simp [hm]

theorem memL_iff_keys (k : Str) (l : List (Str × Str)) :
    memL k l = true ↔ k ∈ l.map Prod.fst := by
  induction l with
  | nil => simp [memL]
  | cons hd tl ih =>
    obtain ⟨k', v'⟩ := hd
    simp only [memL, Bool.or_eq_true, decide_eq_true_eq, List.map_cons,
      List.mem_cons, ih]

theorem pyDictL_keys_nodup (l : List (Str × Str)) :
    ((pyDictL l).map Prod.fst).Nodup := by
  suffices h : ∀ (ll : List (Str × Str)) (acc : List (Str × Str)),
      (acc.map Prod.fst).Nodup →
      ((ll.foldl (fun acc kv => updateL acc kv.1 kv.2) acc).map Prod.fst).Nodup by
    exact h l [] (by simp)
  intro ll
  induction ll with
  | nil => intro acc h; simpa using h
  | cons hd tl ih =>
    intro acc h
    simp only [List.foldl_cons]
    refine ih _ ?_
    rw [updateL_keys]
    by_cases hm : memL hd.1 acc = true
    · simp [hm, h]
    · simp only [Bool.not_eq_true] at hm
      simp only [hm, Bool.false_eq_true, if_false, List.nodup_append]
      refine ⟨h, by simp, ?_⟩
      intro a ha hb
      simp only [List.mem_singleton] at hb
      subst hb
      exact absurd ((memL_iff_keys _ _).mpr ha) (by simp [hm])

theorem memL_iff_lookupL (k : Str) (l : List (Str × Str)) :
    memL k l = true ↔ ∃ v, lookupL l k = some v := by
  induction l with
  | nil => simp [memL, lookupL]
  | cons hd tl ih =>
    obtain ⟨k', v'⟩ := hd
    by_cases hk : k = k'
    · subst hk
      simp [memL, lookupL]
    · simp [memL, lookupL, hk, ih]

theorem lookupL_eq_some_iff :
    ∀ (l : List (Str × Str)), (l.map Prod.fst).Nodup → ∀ (k v : Str),
      (lookupL l k = some v ↔ (k, v) ∈ l) := by
  intro l
  induction l with
  | nil => intro _ k v; simp [lookupL]
  | cons hd tl ih =>
    intro hnd k v
    obtain ⟨k', v'⟩ := hd
    simp only [List.map_cons, List.nodup_cons] at hnd
    by_cases hk : k = k'
    · subst hk
      constructor
      · intro h
        have hv : v' = v := by simpa [lookupL] using h
        subst hv
        exact List.mem_cons_self _ _
      · intro h
        rcases List.mem_cons.mp h with he | ht
        · have hv : v = v' := by
            have := congrArg Prod.snd he
            simpa using this
          simp [lookupL, hv]
        · exact absurd (by simpa using List.mem_map_of_mem Prod.fst ht) hnd.1
    · simp only [lookupL, if_neg hk, List.mem_cons, ih hnd.2 k v]
      constructor
      · exact Or.inr
      · rintro (he | ht)
        · exact absurd (by simpa using congrArg Prod.fst he) hk
        · exact ht

/-- C9: `find_missing_keys` reports exactly the flattened source keys that
are absent from the flattened target or whose target value is identical to
the source value (the stricter reading: identical value means missing). -/
theorem C9_missing_keys (source target : JObj) (k : Str) :
    k ∈ find_missing_keys source target ↔
      ∃ sv, lookupL (flatten_dict source [] true) k = some sv ∧
        (lookupL (flatten_dict target [] true) k = none ∨
         lookupL (flatten_dict target [] true) k = some sv) := by
  unfold find_missing_keys
  rw [mem_sortStr, foldl_append_key_mem]
  simp only [List.not_mem_nil, false_or]
  constructor
  · rintro ⟨⟨k', sv⟩, hm, hk, hc⟩
    dsimp only at hk hc
    subst hk
    refine ⟨sv, (lookupL_eq_some_iff _ (pyDictL_keys_nodup _) _ _).mpr hm, ?_⟩
    rcases Bool.or_eq_true_iff.mp hc with h | h
    · left
      have hmf : memL k' (flatten_dict target [] true) = false := by simpa using h
      cases hl : lookupL (flatten_dict target [] true) k' with
      | none => rfl
      | some w =>
        rw [(memL_iff_lookupL k' _).mpr ⟨w, hl⟩] at hmf
        cases hmf
    · right
      exact of_decide_eq_true h
  · rintro ⟨sv, hs, hcond⟩
    refine ⟨(k, sv), (lookupL_eq_some_iff _ (pyDictL_keys_nodup _) _ _).mp hs,
      rfl, ?_⟩
    dsimp only
    rcases hcond with h | h
    · have hmf : memL k (flatten_dict target [] true) = false := by
        cases hm : memL k (flatten_dict target [] true)
        · rfl
        · obtain ⟨w, hw⟩ := (memL_iff_lookupL _ _).mp hm
          rw [h] at hw
          cases hw
      simp [hmf]
    · simp [h]

/-- Witness for C9: with source and target both `{"a": "x"}` the identical
value makes `"a"` reported missing. -/
theorem C9_missing_keys_witness :
    (S "a") ∈ find_missing_keys (.consS (S "a") (S "x") .nil)
      (.consS (S "a") (S "x") .nil) :=
  (C9_missing_keys _ _ _).mpr ⟨S "x", by decide, Or.inr (by decide)⟩

/-! ## C2 -/

theorem memKey_iff_lookupJ (k : Str) (t : JObj) :
    memKey k t = true ↔ ∃ v, lookupJ t k = some v := by
  induction t with
  | nil => simp [memKey, lookupJ]
  | consS k' v' rest ih =>
    by_cases hk : k = k'
    · subst hk
      simp [memKey, lookupJ]
    · simp [memKey, lookupJ, hk, ih]
  | consO k' s' rest ihs ih =>
    by_cases hk : k = k'
    · subst hk
      simp [memKey, lookupJ]
    · simp [memKey, lookupJ, hk, ih]

theorem keysOf_appendJ (a b : JObj) :
    keysOf (appendJ a b) = keysOf a ++ keysOf b := by
  induction a with
  | nil => simp [appendJ, keysOf]
  | consS k v rest ih => simp [appendJ, keysOf, ih]
  | consO k s rest ihs ih => simp [appendJ, keysOf, ih]

theorem keysOf_targetOnly (t s : JObj) :
    keysOf (targetOnly t s) = (keysOf t).filter (fun k => !(memKey k s)) := by
  induction t with
  | nil => simp [targetOnly, keysOf]
  | consS k v rest ih =>
    by_cases hm : memKey k s = true
    · simp [targetOnly, keysOf, hm, ih]
    · simp only [Bool.not_eq_true] at hm
      simp [targetOnly, keysOf, hm, ih]
  | consO k sub rest ihs ih =>
    by_cases hm : memKey k s = true
    · simp [targetOnly, keysOf, hm, ih]
    · simp only [Bool.not_eq_true] at hm
      simp [targetOnly, keysOf, hm, ih]

theorem keysOf_olsEntries (s t : JObj) (n : Bool)
    (h : srcCovered s t n = true) : keysOf (olsEntries s t n) = keysOf s := by
  induction s with
  | nil => rfl
  | consS k v rest ih =>
    simp only [srcCovered, Bool.and_eq_true] at h
    obtain ⟨w, hw⟩ := (memKey_iff_lookupJ k t).mp h.1
    cases w with
    | vs x => simp [olsEntries, hw, keysOf, ih h.2]
    | vo x => simp [olsEntries, hw, keysOf, ih h.2]
  | consO k sub rest ihs ih =>
    simp only [srcCovered, Bool.and_eq_true] at h
    cases n with
    | true => simp [olsEntries, keysOf, ih h.2]
    | false =>
      have hm : memKey k t = true := by simpa using h.1
      obtain ⟨w, hw⟩ := (memKey_iff_lookupJ k t).mp hm
      cases w with
      | vs x => simp [olsEntries, hw, keysOf, ih h.2]
      | vo x => simp [olsEntries, hw, keysOf, ih h.2]

/-- C2: on the concrete trees of the claim the merge yields exactly the tree
with top-level key order `[a, b, e, f]`, key order `[c, d, x]` inside `b`,
and all leaf values taken from the target; and in general, whenever every
source key is covered (it has a target entry, or in nested mode an object
source value), the key order of the merge at a level is the source keys in
source order followed by the target-only keys in their target order. -/
theorem C2_merge_ordered :
    (order_like_source
        (.consS (S "a") (S "x")
          (.consO (S "b") (.consS (S "c") (S "y") (.consS (S "d") (S "z") .nil))
            (.consS (S "e") (S "w") .nil)))
        (.consO (S "b")
            (.consS (S "d") (S "D")
              (.consS (S "c") (S "C") (.consS (S "x") (S "X") .nil)))
          (.consS (S "a") (S "A")
            (.consS (S "f") (S "F") (.consS (S "e") (S "E") .nil))))
        true
      = .consS (S "a") (S "A")
          (.consO (S "b")
              (.consS (S "c") (S "C")
                (.consS (S "d") (S "D") (.consS (S "x") (S "X") .nil)))
            (.consS (S "e") (S "E") (.consS (S "f") (S "F") .nil)))) ∧
    (∀ (s t : JObj) (n : Bool), srcCovered s t n = true →
      keysOf (order_like_source s t n)
        = keysOf s ++ (keysOf t).filter (fun k => !(memKey k s))) := by
  constructor
  · decide
  · intro s t n h
    unfold order_like_source
    rw [keysOf_appendJ, keysOf_olsEntries s t n h, keysOf_targetOnly]

/-- Witness for C2 at the trees of the claim: the key-order law instantiated
and its coverage hypothesis discharged by computation. -/
theorem C2_merge_ordered_witness :
    keysOf (order_like_source
        (.consS (S "a") (S "x")
          (.consO (S "b") (.consS (S "c") (S "y") (.consS (S "d") (S "z") .nil))
            (.consS (S "e") (S "w") .nil)))
        (.consO (S "b")
            (.consS (S "d") (S "D")
              (.consS (S "c") (S "C") (.consS (S "x") (S "X") .nil)))
          (.consS (S "a") (S "A")
            (.consS (S "f") (S "F") (.consS (S "e") (S "E") .nil))))
        true)
      = [S "a", S "b", S "e", S "f"] := by
  rw [(C2_merge_ordered.2 _ _ _ (by decide))]
  decide

/-! ## C1 — round-trip machinery

The nested round trip is proved through a path-level view of `flatten_dict`:
`flattenPaths` lists the (key path, value) pairs of a tree in depth-first
order, `joinKey` rebuilds the dotted flat key exactly as the recursion of
`flatten_dict` does, and `splitSep` recovers the path during
`unflatten_dict`. -/

theorem splitSep_no_sep {p : Str} (h : '.' ∉ p) : splitSep '.' p = [p] := by
  induction p with
  | nil => rfl
  | cons c r ih =>
    have hc : ¬ c = '.' := fun he => h (he ▸ List.mem_cons_self c r)
    have hr : '.' ∉ r := fun hm => h (List.mem_cons_of_mem c hm)
    simp [splitSep, hc, ih hr]

theorem splitSep_append {p : Str} (s : Str) (h : '.' ∉ p) :
    splitSep '.' (p ++ '.' :: s) = p :: splitSep '.' s := by
  induction p with
  | nil => simp [splitSep]
  | cons c r ih =>
    have hc : ¬ c = '.' := fun he => h (he ▸ List.mem_cons_self c r)
    have hr : '.' ∉ r := fun hm => h (List.mem_cons_of_mem c hm)
    simp only [List.cons_append, splitSep, if_neg hc, List.append_eq]
    rw [ih hr]

theorem splitSep_joinDot :
    ∀ (parts : List Str), parts ≠ [] → (∀ p ∈ parts, '.' ∉ p) →
      splitSep '.' (joinDot parts) = parts := by
  intro parts
  induction parts with
  | nil => intro h; exact absurd rfl h
  | cons p rest ih =>
    intro _ hfree
    cases rest with
    | nil => exact splitSep_no_sep (hfree p (by simp))
    | cons q rs =>
      have hstep : joinDot (p :: q :: rs) = p ++ '.' :: joinDot (q :: rs) := rfl
      rw [hstep, splitSep_append _ (hfree p (by simp)),
        ih (by simp) (fun x hx => hfree x (List.mem_cons_of_mem p hx))]

theorem newkey_of_ne {parent : Str} (k : Str) (h : parent ≠ []) :
    newkey parent k = parent ++ '.' :: k := by
  simp [newkey, h]

theorem joinDot_shift (a b : Str) (rest : List Str) :
    joinDot ((a ++ '.' :: b) :: rest) = a ++ '.' :: joinDot (b :: rest) := by
  cases rest with
  | nil => rfl
  | cons r rs => simp [joinDot, List.append_assoc]

theorem joinKey_of_ne :
    ∀ (ps : List Str) (parent : Str), parent ≠ [] →
      joinKey parent ps = joinDot (parent :: ps) := by
  intro ps
  induction ps with
  | nil => intro parent _; rfl
  | cons q rest ih =>
    intro parent hne
    have h1 : joinKey parent (q :: rest) = joinKey (newkey parent q) rest := rfl
    rw [h1, ih (newkey parent q) (by simp [newkey_of_ne q hne]),
      newkey_of_ne q hne, joinDot_shift]
    exact rfl

theorem joinKey_nil_cons (k : Str) (ps : List Str) (hk : k ≠ []) :
    joinKey [] (k :: ps) = joinDot (k :: ps) := by
  have h1 : joinKey [] (k :: ps) = joinKey (newkey [] k) ps := rfl
  have h2 : newkey [] k = k := by simp [newkey]
  rw [h1, h2, joinKey_of_ne ps k hk]

theorem splitSep_joinKey_nil {p : List Str} (hp : goodPath p) :
    splitSep '.' (joinKey [] p) = p := by
  obtain ⟨hne, hparts⟩ := hp
  cases p with
  | nil => exact absurd rfl hne
  | cons k ps =>
    rw [joinKey_nil_cons k ps (hparts k (by simp)).1]
    exact splitSep_joinDot _ (by simp) (fun x hx => (hparts x hx).2)

theorem joinKey_inj {parent : Str} {p1 p2 : List Str}
    (h1 : goodPath p1) (h2 : goodPath p2)
    (heq : joinKey parent p1 = joinKey parent p2) : p1 = p2 := by
  by_cases hpar : parent = []
  · subst hpar
    have := congrArg (splitSep '.') heq
    rwa [splitSep_joinKey_nil h1, splitSep_joinKey_nil h2] at this
  · rw [joinKey_of_ne p1 parent hpar, joinKey_of_ne p2 parent hpar] at heq
    obtain ⟨hne1, hparts1⟩ := h1
    obtain ⟨hne2, hparts2⟩ := h2
    cases p1 with
    | nil => exact absurd rfl hne1
    | cons a as =>
      cases p2 with
      | nil => exact absurd rfl hne2
      | cons b bs =>
        have hstep1 : joinDot (parent :: a :: as) = parent ++ '.' :: joinDot (a :: as) := rfl
        have hstep2 : joinDot (parent :: b :: bs) = parent ++ '.' :: joinDot (b :: bs) := rfl
        rw [hstep1, hstep2] at heq
        have heq2 : joinDot (a :: as) = joinDot (b :: bs) := by
          simpa using List.append_cancel_left heq
        have hsplit := congrArg (splitSep '.') heq2
        rwa [splitSep_joinDot (a :: as) (by simp) (fun x hx => (hparts1 x hx).2),
          splitSep_joinDot (b :: bs) (by simp) (fun x hx => (hparts2 x hx).2)] at hsplit

theorem goodB_consS_iff {k v : Str} {rest : JObj} :
    goodB (.consS k v rest) = true ↔
      k ≠ [] ∧ '.' ∉ k ∧ memKey k rest = false ∧ goodB rest = true := by
  simp [goodB, and_assoc]

theorem goodB_consO_iff {k : Str} {sub rest : JObj} :
    goodB (.consO k sub rest) = true ↔
      k ≠ [] ∧ '.' ∉ k ∧ memKey k rest = false ∧ sub ≠ .nil ∧
        goodB sub = true ∧ goodB rest = true := by
  simp [goodB, and_assoc]

theorem flattenPaths_good :
    ∀ (T : JObj), goodB T = true → ∀ pv ∈ flattenPaths T, goodPath pv.1 := by
  intro T
  induction T with
  | nil => intro _ pv hm; simp [flattenPaths] at hm
  | consS k v rest ih =>
    intro hg pv hm
    rw [goodB_consS_iff] at hg
    rcases List.mem_cons.mp hm with he | ht
    · subst he
      refine ⟨by simp, ?_⟩
      intro part hp
      simp only [List.mem_singleton] at hp
      subst hp
      exact ⟨hg.1, hg.2.1⟩
    · exact ih hg.2.2.2 pv ht
  | consO k sub rest ihs ih =>
    intro hg pv hm
    rw [goodB_consO_iff] at hg
    rcases List.mem_append.mp hm with hl | hr
    · obtain ⟨qv, hqv, rfl⟩ := List.mem_map.mp hl
      have hq := ihs hg.2.2.2.2.1 qv hqv
      refine ⟨by simp, ?_⟩
      intro part hp
      rcases List.mem_cons.mp hp with he | hp'
      · subst he
        exact ⟨hg.1, hg.2.1⟩
      · exact hq.2 part hp'
    · exact ih hg.2.2.2.2.2 pv hr

theorem flattenPaths_head :
    ∀ (T : JObj) (pv : List Str × Str), pv ∈ flattenPaths T →
      ∃ h t, pv.1 = h :: t ∧ memKey h T = true := by
  intro T
  induction T with
  | nil => intro pv hm; simp [flattenPaths] at hm
  | consS k v rest ih =>
    intro pv hm
    rcases List.mem_cons.mp hm with he | ht
    · subst he
      exact ⟨k, [], rfl, by simp [memKey]⟩
    · obtain ⟨h, t, hp, hmem⟩ := ih pv ht
      exact ⟨h, t, hp, by simp [memKey, hmem]⟩
  | consO k sub rest ihs ih =>
    intro pv hm
    rcases List.mem_append.mp hm with hl | hr
    · obtain ⟨qv, _, rfl⟩ := List.mem_map.mp hl
      exact ⟨k, qv.1, rfl, by simp [memKey]⟩
    · obtain ⟨h, t, hp, hmem⟩ := ih pv hr
      exact ⟨h, t, hp, by simp [memKey, hmem]⟩

theorem flattenPaths_nodup :
    ∀ (T : JObj), goodB T = true → ((flattenPaths T).map Prod.fst).Nodup := by
  intro T
  induction T with
  | nil => intro _; simp [flattenPaths]
  | consS k v rest ih =>
    intro hg
    rw [goodB_consS_iff] at hg
    simp only [flattenPaths, List.map_cons, List.nodup_cons]
    refine ⟨?_, ih hg.2.2.2⟩
    intro hmem
    obtain ⟨pv, hpv, heq⟩ := List.mem_map.mp hmem
    obtain ⟨h, t, hp, hmemk⟩ := flattenPaths_head rest pv hpv
    rw [hp] at heq
    have hk : k = h := by
      have := congrArg (fun l => l.headD []) heq.symm
      simpa using this
    rw [← hk] at hmemk
    rw [hmemk] at hg
    exact absurd hg.2.2.1 (by simp)
  | consO k sub rest ihs ih =>
    intro hg
    rw [goodB_consO_iff] at hg
    simp only [flattenPaths, List.map_append, List.nodup_append, List.map_map]
    refine ⟨?_, ih hg.2.2.2.2.2, ?_⟩
    · have hinj : ∀ p1 p2 : List Str, k :: p1 = k :: p2 → p1 = p2 := by
        intro p1 p2 h
        injection h
      have : ((flattenPaths sub).map Prod.fst).map (fun p => k :: p) |>.Nodup :=
        (ihs hg.2.2.2.2.1).map (fun a b h => hinj a b h)
      simpa [List.map_map, Function.comp] using this
    · intro x hx hy
      obtain ⟨pv, _, hpv⟩ := List.mem_map.mp hx
      obtain ⟨qv, hqv, hqv2⟩ := List.mem_map.mp hy
      obtain ⟨h, t, hp, hmemk⟩ := flattenPaths_head rest qv hqv
      rw [hp] at hqv2
      simp only [Function.comp_apply] at hpv
      have hk : k = h := by
        have h1 : (k :: pv.1).headD [] = x.headD [] := by rw [hpv]
        have h2 : (h :: t).headD [] = x.headD [] := by rw [hqv2]
        simp only [List.headD_cons] at h1 h2
        rw [h1, ← h2]
      rw [← hk] at hmemk
      rw [hmemk] at hg
      exact absurd hg.2.2.1 (by simp)

theorem flattenPaths_ne :
    ∀ (T : JObj), goodB T = true → T ≠ .nil → flattenPaths T ≠ [] := by
  intro T
  induction T with
  | nil => intro _ h; exact absurd rfl h
  | consS k v rest ih => intro _ _; simp [flattenPaths]
  | consO k sub rest ihs ih =>
    intro hg _
    rw [goodB_consO_iff] at hg
    have hsub := ihs hg.2.2.2.2.1 hg.2.2.2.1
    simp only [flattenPaths, ne_eq, List.append_eq_nil, not_and]
    intro hmap
    exact absurd (List.map_eq_nil_iff.mp hmap) hsub

theorem updateL_absent {k : Str} (v : Str) :
    ∀ (acc : List (Str × Str)), memL k acc = false →
      updateL acc k v = acc ++ [(k, v)] := by
  intro acc
  induction acc with
  | nil => intro _; rfl
  | cons hd tl ih =>
    intro hm
    obtain ⟨k', v'⟩ := hd
    simp only [memL, Bool.or_eq_false_iff, decide_eq_false_iff_not] at hm
    simp [updateL, hm.1, ih hm.2]

theorem pyDictL_id {l : List (Str × Str)} (h : (l.map Prod.fst).Nodup) :
    pyDictL l = l := by
  suffices hgen : ∀ (ll acc : List (Str × Str)), ((acc ++ ll).map Prod.fst).Nodup →
      ll.foldl (fun acc kv => updateL acc kv.1 kv.2) acc = acc ++ ll by
    simpa using hgen l [] (by simpa using h)
  intro ll
  induction ll with
  | nil => intro acc _; simp
  | cons hd tl ih =>
    intro acc hnd
    obtain ⟨k, v⟩ := hd
    have hmem : memL k acc = false := by
      rw [List.map_append] at hnd
      rcases List.nodup_append.mp hnd with ⟨_, _, hdisj⟩
      cases hm : memL k acc with
      | false => rfl
      | true =>
        have hk_in : k ∈ (((k, v) :: tl).map Prod.fst) := by simp
        exact absurd hk_in (hdisj ((memL_iff_keys k acc).mp hm))
    simp only [List.foldl_cons]
    rw [updateL_absent v acc hmem, ih (acc ++ [(k, v)]) (by simpa using hnd)]
    simp

theorem pathItems_keys_nodup (T : JObj) (parent : Str) (hg : goodB T = true) :
    ((pathItems T parent).map Prod.fst).Nodup := by
  unfold pathItems
  rw [List.map_map]
  have heq : ((flattenPaths T).map
      (Prod.fst ∘ fun pv : List Str × Str => (joinKey parent pv.1, pv.2)))
      = ((flattenPaths T).map Prod.fst).map (joinKey parent) := by
    rw [List.map_map]
    rfl
  rw [heq]
  refine (flattenPaths_nodup T hg).map_on ?_
  intro p1 hp1 p2 hp2 heq2
  obtain ⟨pv1, hpv1, rfl⟩ := List.mem_map.mp hp1
  obtain ⟨pv2, hpv2, rfl⟩ := List.mem_map.mp hp2
  exact joinKey_inj (flattenPaths_good T hg pv1 hpv1)
    (flattenPaths_good T hg pv2 hpv2) heq2

theorem flatten_go_eq_pathItems :
    ∀ (T : JObj), goodB T = true → ∀ (parent : Str),
      flatten_go T parent true = pathItems T parent := by
  intro T
  induction T with
  | nil => intro _ parent; rfl
  | consS k v rest ih =>
    intro hg parent
    rw [goodB_consS_iff] at hg
    simp only [flatten_go, pathItems, flattenPaths, List.map_cons]
    rw [ih hg.2.2.2 parent]
    rfl
  | consO k sub rest ihs ih =>
    intro hg parent
    rw [goodB_consO_iff] at hg
    simp only [flatten_go, if_pos, pathItems, flattenPaths, List.map_append,
      List.map_map]
    rw [ih hg.2.2.2.2.2 parent, ihs hg.2.2.2.2.1 (newkey parent k)]
    rw [pyDictL_id (pathItems_keys_nodup sub (newkey parent k) hg.2.2.2.2.1)]
    rfl

theorem flatten_dict_nested_eq (T : JObj) (hg : goodB T = true) :
    flatten_dict T [] true = pathItems T [] := by
  unfold flatten_dict
  rw [flatten_go_eq_pathItems T hg []]
  exact pyDictL_id (pathItems_keys_nodup T [] hg)

theorem lookupJ_eq_none {k : Str} {t : JObj} (h : memKey k t = false) :
    lookupJ t k = none := by
  cases hl : lookupJ t k with
  | none => rfl
  | some v =>
    rw [(memKey_iff_lookupJ k t).mpr ⟨v, hl⟩] at h
    cases h

theorem memKey_appendJ (k : Str) (A B : JObj) :
    memKey k (appendJ A B) = (memKey k A || memKey k B) := by
  induction A with
  | nil => simp [appendJ, memKey]
  | consS k' v' rest ih => simp [appendJ, memKey, ih, Bool.or_assoc]
  | consO k' s' rest ihs ih => simp [appendJ, memKey, ih, Bool.or_assoc]

theorem appendJ_nil_right (a : JObj) : appendJ a .nil = a := by
  induction a with
  | nil => rfl
  | consS k v rest ih => simp [appendJ, ih]
  | consO k s rest ihs ih => simp [appendJ, ih]

theorem appendJ_assoc (a b c : JObj) :
    appendJ (appendJ a b) c = appendJ a (appendJ b c) := by
  induction a with
  | nil => rfl
  | consS k v rest ih => simp [appendJ, ih]
  | consO k s rest ihs ih => simp [appendJ, ih]

theorem updateJ_absent_vs {k : Str} {t : JObj} (w : Str)
    (h : memKey k t = false) :
    updateJ t k (.vs w) = appendJ t (.consS k w .nil) := by
  induction t with
  | nil => rfl
  | consS k' v' rest ih =>
    simp only [memKey, Bool.or_eq_false_iff, decide_eq_false_iff_not] at h
    simp [updateJ, h.1, appendJ, ih h.2]
  | consO k' s' rest ihs ih =>
    simp only [memKey, Bool.or_eq_false_iff, decide_eq_false_iff_not] at h
    simp [updateJ, h.1, appendJ, ih h.2]

theorem updateJ_absent_vo {k : Str} {t : JObj} (s : JObj)
    (h : memKey k t = false) :
    updateJ t k (.vo s) = appendJ t (.consO k s .nil) := by
  induction t with
  | nil => rfl
  | consS k' v' rest ih =>
    simp only [memKey, Bool.or_eq_false_iff, decide_eq_false_iff_not] at h
    simp [updateJ, h.1, appendJ, ih h.2]
  | consO k' s' rest ihs ih =>
    simp only [memKey, Bool.or_eq_false_iff, decide_eq_false_iff_not] at h
    simp [updateJ, h.1, appendJ, ih h.2]

theorem lookupJ_assembled {k : Str} {A : JObj} (s0 B : JObj)
    (h : memKey k A = false) :
    lookupJ (appendJ A (.consO k s0 B)) k = some (.vo s0) := by
  induction A with
  | nil => simp [appendJ, lookupJ]
  | consS k' v' rest ih =>
    simp only [memKey, Bool.or_eq_false_iff, decide_eq_false_iff_not] at h
    simp [appendJ, lookupJ, h.1, ih h.2]
  | consO k' s' rest ihs ih =>
    simp only [memKey, Bool.or_eq_false_iff, decide_eq_false_iff_not] at h
    simp [appendJ, lookupJ, h.1, ih h.2]

theorem updateJ_assembled {k : Str} {A : JObj} (s0 s1 B : JObj)
    (h : memKey k A = false) :
    updateJ (appendJ A (.consO k s0 B)) k (.vo s1)
      = appendJ A (.consO k s1 B) := by
  induction A with
  | nil => simp [appendJ, updateJ]
  | consS k' v' rest ih =>
    simp only [memKey, Bool.or_eq_false_iff, decide_eq_false_iff_not] at h
    simp [appendJ, updateJ, h.1, ih h.2]
  | consO k' s' rest ihs ih =>
    simp only [memKey, Bool.or_eq_false_iff, decide_eq_false_iff_not] at h
    simp [appendJ, updateJ, h.1, ih h.2]

theorem foldInsertP_cons (pv : List Str × Str) (L : List (List Str × Str))
    (t : JObj) :
    foldInsertP (pv :: L) t = (insertParts t pv.1 pv.2).bind (foldInsertP L) := by
  cases h : insertParts t pv.1 pv.2 with
  | none => simp [foldInsertP, List.foldlM_cons, h]
  | some s => simp [foldInsertP, List.foldlM_cons, h]

theorem foldInsertP_append (L1 L2 : List (List Str × Str)) (t : JObj) :
    foldInsertP (L1 ++ L2) t = (foldInsertP L1 t).bind (foldInsertP L2) := by
  induction L1 generalizing t with
  | nil => simp [foldInsertP]
  | cons pv L ih =>
    simp only [List.cons_append, foldInsertP_cons]
    cases h : insertParts t pv.1 pv.2 with
    | none => simp
    | some s => simpa using ih s

theorem foldInsert_prepend (k : Str) :
    ∀ (L : List (List Str × Str)) (A B s0 : JObj),
      memKey k A = false → (∀ pv ∈ L, pv.1 ≠ []) →
      foldInsertP (L.map (fun pv => (k :: pv.1, pv.2)))
          (appendJ A (.consO k s0 B))
        = (foldInsertP L s0).map (fun s' => appendJ A (.consO k s' B)) := by
  intro L
  induction L with
  | nil => intro A B s0 _ _; rfl
  | cons pv L' ih =>
    intro A B s0 hA hne
    obtain ⟨p, v⟩ := pv
    have hp : p ≠ [] := hne (p, v) (by simp)
    cases p with
    | nil => exact absurd rfl hp
    | cons q qs =>
      have hlk := lookupJ_assembled (k := k) (A := A) s0 B hA
      have hstep : insertParts (appendJ A (.consO k s0 B)) (k :: q :: qs) v
          = (insertParts s0 (q :: qs) v).map
              (fun s => updateJ (appendJ A (.consO k s0 B)) k (.vo s)) := by
        simp only [insertParts, hlk]
      simp only [List.map_cons, foldInsertP_cons, hstep]
      cases hins : insertParts s0 (q :: qs) v with
      | none => simp
      | some s1 =>
        have hup := updateJ_assembled (k := k) (A := A) s0 s1 B hA
        have hL : (Option.map
              (fun s => updateJ (appendJ A (.consO k s0 B)) k (.vo s))
              (some s1)).bind
              (foldInsertP (L'.map fun pv => (k :: pv.1, pv.2)))
            = foldInsertP (L'.map fun pv => (k :: pv.1, pv.2))
                (appendJ A (.consO k s1 B)) := by
          simp [hup]
        rw [hL, ih A B s1 hA (fun pv hm => hne pv (List.mem_cons_of_mem _ hm))]
        rfl

theorem memKey_iff_keysOf (k : Str) (t : JObj) :
    memKey k t = true ↔ k ∈ keysOf t := by
  induction t with
  | nil => simp [memKey, keysOf]
  | consS k' v rest ih => simp [memKey, keysOf, ih]
  | consO k' s rest ihs ih => simp [memKey, keysOf, ih]

theorem foldInsertP_flatten :
    ∀ (T : JObj), goodB T = true → ∀ (acc : JObj),
      (∀ kk, memKey kk T = true → memKey kk acc = false) →
      foldInsertP (flattenPaths T) acc = some (appendJ acc T) := by
  intro T
  induction T with
  | nil =>
    intro _ acc _
    rw [appendJ_nil_right]
    rfl
  | consS k v rest ih =>
    intro hg acc hacc
    rw [goodB_consS_iff] at hg
    have hkacc : memKey k acc = false := hacc k (by simp [memKey])
    have hpaths : flattenPaths (.consS k v rest) = ([k], v) :: flattenPaths rest := rfl
    rw [hpaths, foldInsertP_cons]
    have h1 : insertParts acc [k] v = some (updateJ acc k (.vs v)) := rfl
    rw [h1, updateJ_absent_vs v hkacc]
    have hbind : (some (appendJ acc (.consS k v .nil))).bind
        (foldInsertP (flattenPaths rest))
        = foldInsertP (flattenPaths rest) (appendJ acc (.consS k v .nil)) := rfl
    rw [hbind, ih hg.2.2.2 (appendJ acc (.consS k v .nil)) ?_, appendJ_assoc]
    · rfl
    · intro kk hkk
      have hne : kk ≠ k := by
        intro he
        subst he
        rw [hkk] at hg
        exact absurd hg.2.2.1 (by simp)
      rw [memKey_appendJ, hacc kk (by simp [memKey, hkk]), Bool.false_or]
      simp [memKey, hne]
  | consO k sub rest ihs ih =>
    intro hg acc hacc
    rw [goodB_consO_iff] at hg
    obtain ⟨hk_ne, hk_dot, hmem_rest, hsub_ne, hg_sub, hg_rest⟩ := hg
    have hkacc : memKey k acc = false := hacc k (by simp [memKey])
    have hne := flattenPaths_ne sub hg_sub hsub_ne
    have hsub := ihs hg_sub .nil (fun kk _ => rfl)
    rw [show appendJ .nil sub = sub from rfl] at hsub
    cases hps : flattenPaths sub with
    | nil => exact absurd hps hne
    | cons pv1 L1 =>
      obtain ⟨p1, v1⟩ := pv1
      rw [hps, foldInsertP_cons] at hsub
      cases hins : insertParts .nil p1 v1 with
      | none =>
        rw [hins] at hsub
        exact absurd hsub (by simp)
      | some s1 =>
        rw [hins] at hsub
        have hsub' : foldInsertP L1 s1 = some sub := hsub
        have hp1good := flattenPaths_good sub hg_sub (p1, v1) (by rw [hps]; simp)
        have hpaths : flattenPaths (.consO k sub rest)
            = (flattenPaths sub).map (fun pv => (k :: pv.1, pv.2))
              ++ flattenPaths rest := rfl
        rw [hpaths, hps, foldInsertP_append]
        simp only [List.map_cons, foldInsertP_cons]
        have hlkacc : lookupJ acc k = none := lookupJ_eq_none hkacc
        cases hp1 : p1 with
        | nil => exact absurd (hp1 ▸ hp1good.1) (fun h => h rfl)
        | cons q qs =>
          rw [hp1] at hins
          have hstep : insertParts acc (k :: q :: qs) v1
              = (insertParts .nil (q :: qs) v1).map
                  (fun s => updateJ acc k (.vo s)) := by
            simp only [insertParts, hlkacc]
          rw [hstep, hins]
          have hLstep : ((some (updateJ acc k (.vo s1))).map id).bind
              (foldInsertP (L1.map fun pv => (k :: pv.1, pv.2)))
              = foldInsertP (L1.map fun pv => (k :: pv.1, pv.2))
                  (updateJ acc k (.vo s1)) := rfl
          have hbind : ((Option.map (fun s => updateJ acc k (.vo s)) (some s1)).bind
              (foldInsertP (L1.map fun pv => (k :: pv.1, pv.2)))).bind
              (foldInsertP (flattenPaths rest))
              = (foldInsertP (L1.map fun pv => (k :: pv.1, pv.2))
                  (updateJ acc k (.vo s1))).bind
                  (foldInsertP (flattenPaths rest)) := rfl
          rw [hbind, updateJ_absent_vo s1 hkacc,
            foldInsert_prepend k L1 acc .nil s1 hkacc ?pne, hsub']
          case pne =>
            intro pv hm
            exact (flattenPaths_good sub hg_sub pv (by rw [hps]; simp [hm])).1
          have hmap : (Option.map (fun s' => appendJ acc (.consO k s' .nil))
              (some sub)).bind (foldInsertP (flattenPaths rest))
              = foldInsertP (flattenPaths rest)
                  (appendJ acc (.consO k sub .nil)) := rfl
          rw [hmap, ih hg_rest (appendJ acc (.consO k sub .nil)) ?hrest,
            appendJ_assoc]
          · rfl
          case hrest =>
            intro kk hkk
            have hne2 : kk ≠ k := by
              intro he
              subst he
              rw [hkk] at hmem_rest
              cases hmem_rest
            rw [memKey_appendJ, hacc kk (by simp [memKey, hkk]), Bool.false_or]
            simp [memKey, hne2]

theorem foldlM_split_eq (L : List (List Str × Str))
    (hsplit : ∀ pv ∈ L, splitSep '.' (joinKey [] pv.1) = pv.1) :
    ∀ (acc : JObj),
      (L.map (fun pv => (joinKey [] pv.1, pv.2))).foldlM
          (fun acc kv => insertParts acc (splitSep '.' kv.1) kv.2) acc
        = foldInsertP L acc := by
  induction L with
  | nil => intro acc; rfl
  | cons pv L ih =>
    intro acc
    simp only [List.map_cons, List.foldlM_cons]
    rw [hsplit pv (by simp), foldInsertP_cons]
    cases h : insertParts acc pv.1 pv.2 with
    | none => simp
    | some s =>
      simpa using ih (fun q hq => hsplit q (List.mem_cons_of_mem _ hq)) s

theorem unflatten_pathItems (T : JObj) (hg : goodB T = true) :
    unflatten_dict (pathItems T []) true = foldInsertP (flattenPaths T) .nil := by
  have hsplit : ∀ pv ∈ flattenPaths T, splitSep '.' (joinKey [] pv.1) = pv.1 :=
    fun pv hm => splitSep_joinKey_nil (flattenPaths_good T hg pv hm)
  show (pathItems T []).foldlM
      (fun acc kv => insertParts acc (splitSep '.' kv.1) kv.2) .nil
    = foldInsertP (flattenPaths T) .nil
  exact foldlM_split_eq (flattenPaths T) hsplit .nil

theorem flatOkB_consS_iff {k v : Str} {rest : JObj} :
    flatOkB (.consS k v rest) = true ↔
      memKey k rest = false ∧ flatOkB rest = true := by
  simp [flatOkB]

theorem flatten_go_flat_eq :
    ∀ (T : JObj), flatOkB T = true → flatten_go T [] false = toPairs T := by
  intro T
  induction T with
  | nil => intro _; rfl
  | consS k v rest ih =>
    intro h
    rw [flatOkB_consS_iff] at h
    simp only [flatten_go, toPairs, ih h.2]
    rw [show newkey [] k = k from by simp [newkey]]
  | consO k sub rest ihs ih =>
    intro h
    exact absurd h (by simp [flatOkB])

theorem toPairs_keys_eq :
    ∀ (T : JObj), flatOkB T = true → (toPairs T).map Prod.fst = keysOf T := by
  intro T
  induction T with
  | nil => intro _; rfl
  | consS k v rest ih =>
    intro h
    rw [flatOkB_consS_iff] at h
    simp [toPairs, keysOf, ih h.2]
  | consO k sub rest ihs ih =>
    intro h
    exact absurd h (by simp [flatOkB])

theorem keysOf_nodup_flat :
    ∀ (T : JObj), flatOkB T = true → (keysOf T).Nodup := by
  intro T
  induction T with
  | nil => intro _; simp [keysOf]
  | consS k v rest ih =>
    intro h
    rw [flatOkB_consS_iff] at h
    simp only [keysOf, List.nodup_cons]
    refine ⟨?_, ih h.2⟩
    intro hmem
    rw [(memKey_iff_keysOf k rest).mpr hmem] at h
    cases h.1
  | consO k sub rest ihs ih =>
    intro h
    exact absurd h (by simp [flatOkB])

theorem ofPairs_toPairs :
    ∀ (T : JObj), flatOkB T = true → ofPairs (toPairs T) = T := by
  intro T
  induction T with
  | nil => intro _; rfl
  | consS k v rest ih =>
    intro h
    rw [flatOkB_consS_iff] at h
    simp [toPairs, ofPairs, ih h.2]
  | consO k sub rest ihs ih =>
    intro h
    exact absurd h (by simp [flatOkB])

/-- C1 counterexample: the tree `{"a": {}}` satisfies the proviso of the
claim (no key contains the separator), yet nested flattening erases the
empty subtree entirely and unflattening returns the empty tree rather than
the original. -/
theorem C1_empty_subtree_cex :
    unflatten_dict (flatten_dict (.consO (S "a") .nil .nil) [] true) true
      = some .nil ∧
    some JObj.nil ≠ some (JObj.consO (S "a") JObj.nil JObj.nil) ∧
    '.' ∉ S "a" := by
  refine ⟨by decide, by decide, by decide⟩

/-- C1 (amended): flattening then unflattening is the identity provided that
in nested mode every level has unique, nonempty keys free of the separator
and no nested object is empty (an empty subtree vanishes during flattening —
the counterexample), and that in flat mode the top-level values are all
strings with unique keys (flat flattening stringifies object values, which
unflattening cannot undo). -/
theorem C1_roundtrip_amended (T : JObj) (nested : Bool)
    (hn : nested = true → goodB T = true)
    (hf : nested = false → flatOkB T = true) :
    unflatten_dict (flatten_dict T [] nested) nested = some T := by
  cases nested with
  | true =>
    have hg := hn rfl
    rw [flatten_dict_nested_eq T hg, unflatten_pathItems T hg,
      foldInsertP_flatten T hg .nil (fun kk _ => rfl)]
    rfl
  | false =>
    have hfl := hf rfl
    have hnodup : ((toPairs T).map Prod.fst).Nodup := by
      rw [toPairs_keys_eq T hfl]
      exact keysOf_nodup_flat T hfl
    have hflat : flatten_dict T [] false = toPairs T := by
      unfold flatten_dict
      rw [flatten_go_flat_eq T hfl]
      exact pyDictL_id hnodup
    rw [hflat]
    show some (ofPairs (pyDictL (toPairs T))) = some T
    rw [pyDictL_id hnodup, ofPairs_toPairs T hfl]

/-- Witness for C1 at a concrete well-formed tree
`{"a": {"b": "x"}, "c": "y"}` in nested mode. -/
theorem C1_roundtrip_witness :
    unflatten_dict
        (flatten_dict
          (.consO (S "a") (.consS (S "b") (S "x") .nil)
            (.consS (S "c") (S "y") .nil)) [] true) true
      = some (.consO (S "a") (.consS (S "b") (S "x") .nil)
          (.consS (S "c") (S "y") .nil)) :=
  C1_roundtrip_amended
    (.consO (S "a") (.consS (S "b") (S "x") .nil) (.consS (S "c") (S "y") .nil))
    true (fun _ => by decide) (fun h => absurd h (by decide))
